import Mathlib

/-!
# Verification of the `alex` archetype-based ECS core

This file gives a shallow embedding, in Lean 4, of the parts of the `alex`
entity-component-system library that the specification's claims are about,
and proves (or refutes) each claim against that embedding.

Conventions of the embedding:

* `ComponentId` (a Rust `TypeId` wrapper) is modelled as `Nat`; its `Ord`
  instance compares ids, matching `impl Ord for ComponentInfo` which compares
  only `type_id`.
* Machine integers (`usize`, `u32`, `u64`) are modelled as `Nat`; the places
  where the source checks overflow explicitly (`checked_mul`, `try_from`,
  `Layout::from_size_align`) are modelled as explicit bound checks against
  `2 ^ 64`, `2 ^ 32`, `2 ^ 63`.
* Rust `Vec` is a `List`; `Vec::swap_remove`, `Vec::insert`, `position`,
  iterator `nth` are translated to the corresponding list operations with the
  same semantics.
* Chunk memory is modelled as a typed store: an association list from
  `(byte address, component id)` to the stored value, where a component of
  byte size `s` stores its value modulo `2 ^ (8 * s)`.  Columns of
  positive-size components occupy disjoint byte ranges of a chunk, and a
  zero-size Rust type has a unique value, so tagging addresses with the
  component id and truncating values to the component size is observationally
  faithful to the untyped byte memory of the source.
* Panics and `Option`/error returns are distinguished: functions that can
  panic return `Option`/`Except` or a dedicated result type with an explicit
  panic constructor.
-/

namespace Alex

/-! ## Access kinds and component access descriptors (src/access.rs) -/

/-- `enum Access { Read, Write }`. -/
inductive Access where
  | Read : Access
  | Write : Access
deriving DecidableEq, Repr

/-- `struct ComponentAccess { component, access, offset }`. -/
structure ComponentAccess where
  component : Nat
  access : Access
  offset : Nat
deriving DecidableEq, Repr

/-! ## Schedule-time normalization (src/schedule.rs, `sort_dedup_access_types`) -/

/-- The sort key used by `sort_dedup_access_types`:
`access_ord` maps `Read` to 1 and `Write` to 0 so that `Write` sorts first. -/
def access_ord : Access → Nat
  | .Read => 1
  | .Write => 0

/-- The ordering `sort_by_key(|item| (item.component, access_ord(item.access)))`
imposes: lexicographic on `(component, access_ord access)`. -/
def caKeyLe (a b : ComponentAccess) : Prop :=
  a.component < b.component ∨
    (a.component = b.component ∧ access_ord a.access ≤ access_ord b.access)

instance : DecidableRel caKeyLe := fun a b => by
  unfold caKeyLe; infer_instance

instance : IsTotal ComponentAccess caKeyLe where
  total a b := by
    unfold caKeyLe
    rcases Nat.lt_trichotomy a.component b.component with h | h | h
    · exact Or.inl (Or.inl h)
    · rcases Nat.le_total (access_ord a.access) (access_ord b.access) with h2 | h2
      · exact Or.inl (Or.inr ⟨h, h2⟩)
      · exact Or.inr (Or.inr ⟨h.symm, h2⟩)
    · exact Or.inr (Or.inl h)

instance : IsTrans ComponentAccess caKeyLe where
  trans a b c hab hbc := by
    unfold caKeyLe at *
    rcases hab with h1 | ⟨h1, h1'⟩ <;> rcases hbc with h2 | ⟨h2, h2'⟩
    · exact Or.inl (h1.trans h2)
    · exact Or.inl (h2 ▸ h1)
    · exact Or.inl (h1 ▸ h2)
    · exact Or.inr ⟨h1.trans h2, h1'.trans h2'⟩

/-- Stable sort by `(component, access_ord access)`, as
`result.sort_by_key(|item| (item.component, access_ord(item.access)))` does. -/
def sortByKey (l : List ComponentAccess) : List ComponentAccess :=
  l.insertionSort caKeyLe

/-- The `retain` loop of `sort_dedup_access_types`: drop an item when the
`last` retained item has the same component, otherwise retain it and remember
it as `last`. -/
def retainDedup : Option ComponentAccess → List ComponentAccess → List ComponentAccess
  | _, [] => []
  | none, x :: xs => x :: retainDedup (some x) xs
  | some p, x :: xs =>
    if p.component = x.component then retainDedup (some p) xs
    else x :: retainDedup (some x) xs

/-- `fn sort_dedup_access_types(iter, bump)`: sort by
`(component, access_ord access)` (so `Write` comes first within a component),
then retain only the first entry of each component run. -/
def sort_dedup_access_types (l : List ComponentAccess) : List ComponentAccess :=
  retainDedup none (sortByKey l)

/-- `caKeyLe` implies `≤` on components. -/
theorem caKeyLe_component_le {a b : ComponentAccess} (h : caKeyLe a b) :
    a.component ≤ b.component := by
  rcases h with h | ⟨h, _⟩
  · exact Nat.le_of_lt h
  · exact Nat.le_of_eq h

theorem retainDedup_nil (o : Option ComponentAccess) : retainDedup o [] = [] := by
  cases o <;> rfl

theorem retainDedup_none_cons (x : ComponentAccess) (xs : List ComponentAccess) :
    retainDedup none (x :: xs) = x :: retainDedup (some x) xs := rfl

theorem retainDedup_some_cons_eq (p x : ComponentAccess) (xs : List ComponentAccess)
    (h : p.component = x.component) :
    retainDedup (some p) (x :: xs) = retainDedup (some p) xs := by
  simp [retainDedup, h]

theorem retainDedup_some_cons_ne (p x : ComponentAccess) (xs : List ComponentAccess)
    (h : ¬ p.component = x.component) :
    retainDedup (some p) (x :: xs) = x :: retainDedup (some x) xs := by
  simp [retainDedup, h]

theorem pairwise_drop_second {p x : ComponentAccess} {xs : List ComponentAccess}
    (hs : (p :: x :: xs).Pairwise caKeyLe) : (p :: xs).Pairwise caKeyLe := by
  obtain ⟨hp, hxxs⟩ := List.pairwise_cons.mp hs
  exact List.pairwise_cons.mpr
    ⟨fun y hy => hp y (List.mem_cons_of_mem x hy), (List.pairwise_cons.mp hxxs).2⟩

/-- Elements produced by the dedup pass with `last = some p` come from the
input and have a component strictly greater than `p`'s, and the output is
strictly sorted by component, provided the input was key-sorted below `p`. -/
theorem retainDedup_some_spec (p : ComponentAccess) (s : List ComponentAccess)
    (hs : (p :: s).Pairwise caKeyLe) :
    (∀ e ∈ retainDedup (some p) s, e ∈ s ∧ p.component < e.component) ∧
    (retainDedup (some p) s).Pairwise (fun a b => a.component < b.component) := by
  induction s generalizing p with
  | nil => simp [retainDedup_nil]
  | cons x xs ih =>
    obtain ⟨hp, hxxs⟩ := List.pairwise_cons.mp hs
    have hpx : caKeyLe p x := hp x (List.mem_cons_self x xs)
    by_cases hc : p.component = x.component
    · obtain ⟨ih1, ih2⟩ := ih p (pairwise_drop_second hs)
      rw [retainDedup_some_cons_eq p x xs hc]
      refine ⟨fun e he => ⟨List.mem_cons_of_mem x (ih1 e he).1, (ih1 e he).2⟩, ih2⟩
    · have hlt : p.component < x.component :=
        Nat.lt_of_le_of_ne (caKeyLe_component_le hpx) hc
      obtain ⟨ih1, ih2⟩ := ih x hxxs
      rw [retainDedup_some_cons_ne p x xs hc]
      constructor
      · intro e he
        rcases List.mem_cons.mp he with rfl | he
        · exact ⟨List.mem_cons_self e xs, hlt⟩
        · exact ⟨List.mem_cons_of_mem x (ih1 e he).1,
            Nat.lt_trans hlt (ih1 e he).2⟩
      · exact List.pairwise_cons.mpr ⟨fun y hy => (ih1 y hy).2, ih2⟩

/-- Component coverage of the dedup pass: a component is present in the output
iff it is present in the input and differs from the remembered component. -/
theorem retainDedup_some_components (p : ComponentAccess) (s : List ComponentAccess)
    (hs : (p :: s).Pairwise caKeyLe) (c : Nat) :
    (∃ e ∈ retainDedup (some p) s, e.component = c) ↔
      ((∃ e ∈ s, e.component = c) ∧ c ≠ p.component) := by
  induction s generalizing p with
  | nil => simp [retainDedup_nil]
  | cons x xs ih =>
    obtain ⟨hp, hxxs⟩ := List.pairwise_cons.mp hs
    have hpx : caKeyLe p x := hp x (List.mem_cons_self x xs)
    by_cases hc : p.component = x.component
    · rw [retainDedup_some_cons_eq p x xs hc, ih p (pairwise_drop_second hs)]
      constructor
      · rintro ⟨⟨e, he, hec⟩, hne⟩
        exact ⟨⟨e, List.mem_cons_of_mem x he, hec⟩, hne⟩
      · rintro ⟨⟨e, he, hec⟩, hne⟩
        rcases List.mem_cons.mp he with rfl | he
        · exact absurd (hc.trans hec) (Ne.symm hne)
        · exact ⟨⟨e, he, hec⟩, hne⟩
    · have hlt : p.component < x.component :=
        Nat.lt_of_le_of_ne (caKeyLe_component_le hpx) hc
      rw [retainDedup_some_cons_ne p x xs hc]
      constructor
      · rintro ⟨e, he, hec⟩
        rcases List.mem_cons.mp he with rfl | he
        · exact ⟨⟨e, List.mem_cons_self e xs, hec⟩, by omega⟩
        · obtain ⟨⟨e', he', hec'⟩, hne⟩ := (ih x hxxs).mp ⟨e, he, hec⟩
          have hxe : x.component ≤ e'.component :=
            caKeyLe_component_le ((List.pairwise_cons.mp hxxs).1 e' he')
          exact ⟨⟨e', List.mem_cons_of_mem x he', hec'⟩, by omega⟩
      · rintro ⟨⟨e, he, hec⟩, hne⟩
        rcases List.mem_cons.mp he with rfl | he
        · exact ⟨e, List.mem_cons_self e _, hec⟩
        · by_cases hcx : c = x.component
          · exact ⟨x, List.mem_cons_self x _, hcx.symm⟩
          · obtain ⟨e'', he'', hec''⟩ := (ih x hxxs).mpr ⟨⟨e, he, hec⟩, hcx⟩
            exact ⟨e'', List.mem_cons_of_mem x he'', hec''⟩

/-- Write-elevation of the dedup pass: a retained entry is a `Write` iff some
entry of the input run with the same component is a `Write`. -/
theorem retainDedup_some_write (p : ComponentAccess) (s : List ComponentAccess)
    (hs : (p :: s).Pairwise caKeyLe) :
    ∀ e ∈ retainDedup (some p) s,
      (e.access = .Write ↔ ∃ x ∈ s, x.component = e.component ∧ x.access = .Write) := by
  induction s generalizing p with
  | nil => simp [retainDedup_nil]
  | cons x xs ih =>
    obtain ⟨hp, hxxs⟩ := List.pairwise_cons.mp hs
    have hpx : caKeyLe p x := hp x (List.mem_cons_self x xs)
    intro e he
    by_cases hc : p.component = x.component
    · rw [retainDedup_some_cons_eq p x xs hc] at he
      have hmem := (retainDedup_some_spec p xs (pairwise_drop_second hs)).1 e he
      rw [ih p (pairwise_drop_second hs) e he]
      constructor
      · rintro ⟨y, hy, hyc, hyw⟩
        exact ⟨y, List.mem_cons_of_mem x hy, hyc, hyw⟩
      · rintro ⟨y, hy, hyc, hyw⟩
        rcases List.mem_cons.mp hy with rfl | hy
        · exact absurd hyc (by omega)
        · exact ⟨y, hy, hyc, hyw⟩
    · rw [retainDedup_some_cons_ne p x xs hc] at he
      rcases List.mem_cons.mp he with rfl | he
      · constructor
        · intro hw
          exact ⟨e, List.mem_cons_self e xs, rfl, hw⟩
        · rintro ⟨y, hy, hyc, hyw⟩
          rcases List.mem_cons.mp hy with rfl | hy
          · exact hyw
          · have hxy : caKeyLe e y := (List.pairwise_cons.mp hxxs).1 y hy
            rcases hxy with h | ⟨h, h'⟩
            · exact absurd hyc (by omega)
            · have hord : access_ord e.access ≤ 0 := by
                rw [hyw] at h'
                simpa [access_ord] using h'
              cases hacc : e.access with
              | Read => rw [hacc] at hord; simp [access_ord] at hord
              | Write => rfl
      · have hmem := (retainDedup_some_spec x xs hxxs).1 e he
        rw [ih x hxxs e he]
        constructor
        · rintro ⟨y, hy, hyc, hyw⟩
          exact ⟨y, List.mem_cons_of_mem x hy, hyc, hyw⟩
        · rintro ⟨y, hy, hyc, hyw⟩
          rcases List.mem_cons.mp hy with rfl | hy
          · exact absurd hyc (by omega)
          · exact ⟨y, hy, hyc, hyw⟩

/-- Combined specification of the dedup pass over a key-sorted list. -/
theorem retainDedup_none_spec (s : List ComponentAccess) (hs : s.Pairwise caKeyLe) :
    ((retainDedup none s).Pairwise fun a b => a.component < b.component) ∧
    (∀ e ∈ retainDedup none s, e ∈ s) ∧
    (∀ c : Nat, (∃ e ∈ retainDedup none s, e.component = c) ↔ ∃ e ∈ s, e.component = c) ∧
    (∀ e ∈ retainDedup none s,
      (e.access = .Write ↔ ∃ x ∈ s, x.component = e.component ∧ x.access = .Write)) := by
  cases s with
  | nil => simp [retainDedup_nil]
  | cons x xs =>
    rw [retainDedup_none_cons]
    obtain ⟨hmem, hpw⟩ := retainDedup_some_spec x xs hs
    refine ⟨?_, ?_, ?_, ?_⟩
    · exact List.pairwise_cons.mpr ⟨fun y hy => (hmem y hy).2, hpw⟩
    · intro e he
      rcases List.mem_cons.mp he with rfl | he
      · exact List.mem_cons_self e xs
      · exact List.mem_cons_of_mem x (hmem e he).1
    · intro c
      constructor
      · rintro ⟨e, he, hec⟩
        rcases List.mem_cons.mp he with rfl | he
        · exact ⟨e, List.mem_cons_self e xs, hec⟩
        · exact ⟨e, List.mem_cons_of_mem x (hmem e he).1, hec⟩
      · rintro ⟨e, he, hec⟩
        rcases List.mem_cons.mp he with rfl | he
        · exact ⟨e, List.mem_cons_self _ _, hec⟩
        · by_cases hcx : c = x.component
          · exact ⟨x, List.mem_cons_self _ _, hcx.symm⟩
          · obtain ⟨e'', he'', hec''⟩ :=
              (retainDedup_some_components x xs hs c).mpr ⟨⟨e, he, hec⟩, hcx⟩
            exact ⟨e'', List.mem_cons_of_mem x he'', hec''⟩
    · intro e he
      rcases List.mem_cons.mp he with rfl | he
      · constructor
        · intro hw
          exact ⟨e, List.mem_cons_self e xs, rfl, hw⟩
        · rintro ⟨y, hy, hyc, hyw⟩
          rcases List.mem_cons.mp hy with rfl | hy
          · exact hyw
          · have hxy : caKeyLe e y := (List.pairwise_cons.mp hs).1 y hy
            rcases hxy with h | ⟨h, h'⟩
            · exact absurd hyc (by omega)
            · have hord : access_ord e.access ≤ 0 := by
                rw [hyw] at h'
                simpa [access_ord] using h'
              cases hacc : e.access with
              | Read => rw [hacc] at hord; simp [access_ord] at hord
              | Write => rfl
      · have hgt := (hmem e he).2
        rw [retainDedup_some_write x xs hs e he]
        constructor
        · rintro ⟨y, hy, hyc, hyw⟩
          exact ⟨y, List.mem_cons_of_mem x hy, hyc, hyw⟩
        · rintro ⟨y, hy, hyc, hyw⟩
          rcases List.mem_cons.mp hy with rfl | hy
          · exact absurd hyc (by omega)
          · exact ⟨y, hy, hyc, hyw⟩

theorem sortByKey_pairwise (l : List ComponentAccess) :
    (sortByKey l).Pairwise caKeyLe :=
  List.sorted_insertionSort caKeyLe l

theorem sortByKey_mem (l : List ComponentAccess) (e : ComponentAccess) :
    e ∈ sortByKey l ↔ e ∈ l :=
  (List.perm_insertionSort caKeyLe l).mem_iff

/-- C5: schedule-time normalization returns a list sorted by `ComponentId`
in which each component appears exactly once (strict sortedness), containing
exactly the components of the input, and an entry's kind is `Write` iff some
input entry for that component was `Write` (otherwise it is `Read`). -/
theorem c5_sort_dedup_access_types_spec (l : List ComponentAccess) :
    ((sort_dedup_access_types l).Pairwise fun a b => a.component < b.component) ∧
    (∀ c : Nat,
      (∃ e ∈ sort_dedup_access_types l, e.component = c) ↔ ∃ e ∈ l, e.component = c) ∧
    (∀ e ∈ sort_dedup_access_types l,
      (e.access = .Write ↔ ∃ x ∈ l, x.component = e.component ∧ x.access = .Write) ∧
      (e.access = .Read ↔ ¬ ∃ x ∈ l, x.component = e.component ∧ x.access = .Write)) := by
  obtain ⟨h1, h2, h3, h4⟩ := retainDedup_none_spec (sortByKey l) (sortByKey_pairwise l)
  unfold sort_dedup_access_types
  refine ⟨h1, ?_, ?_⟩
  · intro c
    rw [h3 c]
    constructor
    · rintro ⟨e, he, hec⟩
      exact ⟨e, (sortByKey_mem l e).mp he, hec⟩
    · rintro ⟨e, he, hec⟩
      exact ⟨e, (sortByKey_mem l e).mpr he, hec⟩
  · intro e he
    have hw : e.access = .Write ↔ ∃ x ∈ l, x.component = e.component ∧ x.access = .Write := by
      rw [h4 e he]
      constructor
      · rintro ⟨x, hx, hxc, hxw⟩
        exact ⟨x, (sortByKey_mem l x).mp hx, hxc, hxw⟩
      · rintro ⟨x, hx, hxc, hxw⟩
        exact ⟨x, (sortByKey_mem l x).mpr hx, hxc, hxw⟩
    refine ⟨hw, ?_⟩
    constructor
    · intro hr hx
      have := hw.mpr hx
      rw [hr] at this
      exact absurd this (by simp)
    · intro hnx
      cases hacc : e.access with
      | Read => rfl
      | Write => exact absurd (hw.mp hacc) hnx

/-! ## ArchetypeAccess token operations (src/access.rs) -/

/-- Default used to model indexing where the index is known to be in bounds. -/
def caDefault : ComponentAccess := ⟨0, .Read, 0⟩

/-- `Vec::swap_remove(i)`: overwrite element `i` with the last element, then
pop the last element. -/
def swapRemove (l : List ComponentAccess) (i : Nat) : List ComponentAccess :=
  match l.getLast? with
  | none => l
  | some last => (l.set i last).dropLast

/-- `swap_remove` removes exactly the element at index `i`, up to order. -/
theorem swapRemove_perm (l : List ComponentAccess) (i : Nat) (hi : i < l.length) :
    (swapRemove l i).Perm (l.eraseIdx i) := by
  have hne : l ≠ [] := by
    intro h; rw [h] at hi; simp at hi
  obtain ⟨last, hlast⟩ : ∃ a, l.getLast? = some a := by
    cases h : l.getLast? with
    | none => exact absurd (List.getLast?_eq_getLast l hne ▸ h) (by simp)
    | some a => exact ⟨a, rfl⟩
  obtain ⟨ys, rfl⟩ := List.getLast?_eq_some_iff.mp hlast
  have hlen : i < ys.length + 1 := by simpa using hi
  have hsw : swapRemove (ys ++ [last]) i = ((ys ++ [last]).set i last).dropLast := by
    unfold swapRemove
    rw [hlast]
  rw [hsw]
  rcases Nat.lt_or_ge i ys.length with hil | hil
  · rw [List.set_append_left i last hil, List.dropLast_concat,
      List.eraseIdx_append_of_lt_length hil,
      List.set_eq_take_append_cons_drop, if_pos hil, List.eraseIdx_eq_take_drop_succ,
      List.append_assoc]
    exact List.Perm.append_left _ (List.perm_append_singleton last _).symm
  · have hieq : i = ys.length := by omega
    rw [List.set_append_right i last hil, hieq]
    simp only [Nat.sub_self, List.set_cons_zero]
    rw [List.dropLast_concat, List.eraseIdx_append_of_length_le (by omega)]
    simp

/-- One requested access processed by `ArchetypeAccess::take`'s `filter_map`
closure: find the source entry with the requested component, then
read-downgrades share, write-against-write moves out, write-against-read is
refused.  Returns the updated source grant list and the taken grant. -/
def takeStep (ats : List ComponentAccess) (requested : ComponentAccess) :
    List ComponentAccess × Option ComponentAccess :=
  match ats.findIdx? (fun item => item.component == requested.component) with
  | none => (ats, none)
  | some index =>
    let entry := ats.getD index caDefault
    match requested.access, entry.access with
    | .Read, _ => (ats.set index { entry with access := .Read }, some requested)
    | .Write, .Write => (swapRemove ats index, some requested)
    | .Write, .Read => (ats, none)

/-- `ArchetypeAccess::take(accessor)`: process every requested access in
order, accumulating the taken grants. -/
def take (ats : List ComponentAccess) (requested : List ComponentAccess) :
    List ComponentAccess × List ComponentAccess :=
  requested.foldl
    (fun st r =>
      let next := takeStep st.1 r
      (next.1, st.2 ++ next.2.toList))
    (ats, [])

/-- `ArchetypeAccess::read_component::<T>`: find the grant for `T`'s
component, downgrade it to `Read` in place, and return the column iterator
(modelled by its offset).  The grant is *not* removed. -/
def read_component (ats : List ComponentAccess) (c : Nat) :
    List ComponentAccess × Option Nat :=
  match ats.findIdx? (fun item => item.component == c) with
  | none => (ats, none)
  | some index =>
    let entry := ats.getD index caDefault
    -- the source reads `self.access_types[index].offset` after the in-place
    -- downgrade; `set` keeps the length and the entry keeps its offset
    (ats.set index { entry with access := .Read }, some entry.offset)

/-- `ArchetypeAccess::write_component::<T>`: find the grant for `T`'s
component; if it is not `Write` return `None`, otherwise `swap_remove` it
from the grant list and return the column iterator built from the removed
entry's offset. -/
def write_component (ats : List ComponentAccess) (c : Nat) :
    List ComponentAccess × Option Nat :=
  match ats.findIdx? (fun item => item.component == c) with
  | none => (ats, none)
  | some index =>
    let entry := ats.getD index caDefault
    if entry.access = .Write then (swapRemove ats index, some entry.offset)
    else (ats, none)

/-- Result of `ArchetypeAccess::access_component`, with an explicit
constructor for the panic of an out-of-bounds grant-list index. -/
inductive AccessComponentResult where
  | notGranted : AccessComponentResult
  | panicked : AccessComponentResult
  | granted : List ComponentAccess → Nat → AccessComponentResult
deriving DecidableEq, Repr

/-- `ArchetypeAccess::access_component(access, component)`: find the grant,
downgrade or `swap_remove` it exactly as the source does, and *then* read
`self.access_types[index].offset`.  After a `swap_remove` that index is out
of bounds (panic) or denotes the moved-in entry. -/
def access_component (ats : List ComponentAccess) (access : Access) (c : Nat) :
    AccessComponentResult :=
  match ats.findIdx? (fun item => item.component == c) with
  | none => .notGranted
  | some index =>
    let entry := ats.getD index caDefault
    match access, entry.access with
    | .Read, _ =>
      -- `set` keeps the length, so `access_types[index]` is the downgraded
      -- entry, whose offset is unchanged
      .granted (ats.set index { entry with access := .Read }) entry.offset
    | .Write, .Write =>
      let rest := swapRemove ats index
      match rest[index]? with
      | none => .panicked
      | some moved => .granted rest moved.offset
    | .Write, .Read => .notGranted

theorem findIdx_set_self {p : ComponentAccess → Bool} {l : List ComponentAccess}
    {i : Nat} {x : ComponentAccess} (hidx : l.findIdx p = i) (hi : i < l.length)
    (hx : p x = true) : (l.set i x).findIdx p = i := by
  induction l generalizing i with
  | nil => simp at hi
  | cons a as ih =>
    rw [List.findIdx_cons] at hidx
    cases hpa : p a with
    | true =>
      rw [hpa] at hidx
      simp only [cond_true] at hidx
      subst hidx
      simp [List.findIdx_cons, hx]
    | false =>
      rw [hpa] at hidx
      simp only [cond_false] at hidx
      have hi1 : 1 ≤ i := by omega
      have hset : (a :: as).set i x = a :: as.set (i - 1) x := by
        cases i with
        | zero => omega
        | succ n => simp
      have hlen : i - 1 < as.length := by
        simp only [List.length_cons] at hi
        omega
      have hrec := @ih (i - 1) (by omega) hlen
      rw [hset, List.findIdx_cons, hpa]
      simp only [cond_false]
      omega

/-- In a grant list with pairwise-distinct components, after erasing the entry
at index `i` no entry with its component remains. -/
theorem not_mem_comp_eraseIdx {l : List ComponentAccess} {i : Nat} {c : Nat}
    (hi : i < l.length)
    (hpair : l.Pairwise fun a b => a.component ≠ b.component)
    (hc : l[i].component = c) :
    ∀ e ∈ l.eraseIdx i, e.component ≠ c := by
  have hl : l = l.take i ++ l[i] :: l.drop (i + 1) := by
    rw [← List.drop_eq_getElem_cons hi, List.take_append_drop]
  rw [hl] at hpair
  obtain ⟨_, hpd, hcross⟩ := List.pairwise_append.mp hpair
  intro e he
  rw [List.eraseIdx_eq_take_drop_succ] at he
  rcases List.mem_append.mp he with he | he
  · exact fun h => (hcross e he l[i] (List.mem_cons_self _ _)) (h.trans hc.symm)
  · exact fun h => ((List.pairwise_cons.mp hpd).1 e he) (hc.trans h.symm)

/-- C3: `ArchetypeAccess::take` applies the following rules per requested
`(component, kind)` pair against the first matching source grant: a requested
`Read` against a granted `Write` or `Read` yields the grant and downgrades
the source entry to `Read`; a requested `Write` against a granted `Write`
yields the grant and removes the source entry (a `swap_remove`, i.e. erasure
up to order); a requested `Write` against a granted `Read` is refused and the
source is unchanged. -/
theorem c3_take_applies_per_request (ats : List ComponentAccess)
    (r e : ComponentAccess) (i : Nat)
    (hfind : ats.findIdx? (fun item => item.component == r.component) = some i)
    (hget : ats[i]? = some e) :
    (r.access = .Read →
      takeStep ats r = (ats.set i { e with access := .Read }, some r)) ∧
    (r.access = .Write → e.access = .Write →
      takeStep ats r = (swapRemove ats i, some r) ∧
      (swapRemove ats i).Perm (ats.eraseIdx i)) ∧
    (r.access = .Write → e.access = .Read →
      takeStep ats r = (ats, none)) := by
  have hi : i < ats.length := (List.findIdx?_eq_some_iff_findIdx_eq.mp hfind).1
  have he : ats[i] = e := by
    rw [List.getElem?_eq_getElem hi] at hget
    exact Option.some.inj hget
  have hgetD : ats.getD i caDefault = e := by
    rw [List.getD_eq_getElem ats caDefault hi, he]
  refine ⟨?_, ?_, ?_⟩
  · intro hr
    simp only [takeStep, hfind, hgetD, hr]
  · intro hr hw
    refine ⟨?_, swapRemove_perm ats i hi⟩
    simp only [takeStep, hfind, hgetD, hr, hw]
  · intro hr hw
    simp only [takeStep, hfind, hgetD, hr, hw]

theorem c3_take_applies_per_request_witness :
    takeStep [⟨0, Access.Write, 8⟩, ⟨1, Access.Read, 16⟩] ⟨0, Access.Read, 8⟩ =
      (([⟨0, Access.Write, 8⟩, ⟨1, Access.Read, 16⟩] : List ComponentAccess).set 0
        { (⟨0, Access.Write, 8⟩ : ComponentAccess) with access := .Read },
       some ⟨0, Access.Read, 8⟩) :=
  (c3_take_applies_per_request [⟨0, Access.Write, 8⟩, ⟨1, Access.Read, 16⟩]
    ⟨0, Access.Read, 8⟩ ⟨0, Access.Write, 8⟩ 0 (by decide) (by decide)).1 rfl

/-- C4 (counterexample): a successful taking read (`read_component`) does
*not* remove the grant; a subsequent `read_component` for the same component
on the resulting token still returns `Some`, not `None`. -/
theorem c4_counterexample :
    (read_component [⟨0, Access.Write, 16⟩] 0).2 = some 16 ∧
    (read_component (read_component [⟨0, Access.Write, 16⟩] 0).1 0).2 = some 16 ∧
    some 16 ≠ (none : Option Nat) := by decide

/-- C4 (amended): after a successful taking write (`write_component::<T>`),
the grant is removed so a subsequent fetch (read or write) of the same
component returns `None`; after a successful taking read
(`read_component::<T>`), the grant is only downgraded to `Read`: a subsequent
taking write returns `None`, but a subsequent taking read returns the same
column again. -/
theorem c4_amended (ats ats' : List ComponentAccess) (c off : Nat)
    (hpair : ats.Pairwise fun a b => a.component ≠ b.component) :
    (write_component ats c = (ats', some off) →
      (read_component ats' c).2 = none ∧ (write_component ats' c).2 = none) ∧
    (read_component ats c = (ats', some off) →
      (write_component ats' c).2 = none ∧ (read_component ats' c).2 = some off) := by
  constructor
  · intro h
    cases hfind : ats.findIdx? (fun item => item.component == c) with
    | none =>
      simp only [write_component, hfind] at h
      exact absurd (congrArg Prod.snd h) (by simp)
    | some i =>
      have hi : i < ats.length := (List.findIdx?_eq_some_iff_findIdx_eq.mp hfind).1
      have hgetD : ats.getD i caDefault = ats[i] := List.getD_eq_getElem ats caDefault hi
      have hcomp : ats[i].component = c := by
        have hidx := (List.findIdx?_eq_some_iff_findIdx_eq.mp hfind).2
        have := @List.findIdx_getElem _ (fun item => item.component == c)
          ats (hidx ▸ hi)
        simpa [hidx] using this
      simp only [write_component, hfind] at h
      by_cases hw : (ats.getD i caDefault).access = Access.Write
      · rw [if_pos hw] at h
        have hats' : ats' = swapRemove ats i := (Prod.ext_iff.mp h).1.symm
        have hnone : ats'.findIdx? (fun item => item.component == c) = none := by
          rw [List.findIdx?_eq_none_iff]
          intro x hx
          have hx' : x ∈ ats.eraseIdx i :=
            (swapRemove_perm ats i hi).mem_iff.mp (hats' ▸ hx)
          have := not_mem_comp_eraseIdx hi hpair hcomp x hx'
          simpa using this
        constructor
        · simp only [read_component, hnone]
        · simp only [write_component, hnone]
      · rw [if_neg hw] at h
        exact absurd (congrArg Prod.snd h) (by simp)
  · intro h
    cases hfind : ats.findIdx? (fun item => item.component == c) with
    | none =>
      simp only [read_component, hfind] at h
      exact absurd (congrArg Prod.snd h) (by simp)
    | some i =>
      have hi : i < ats.length := (List.findIdx?_eq_some_iff_findIdx_eq.mp hfind).1
      have hgetD : ats.getD i caDefault = ats[i] := List.getD_eq_getElem ats caDefault hi
      have hcomp : ats[i].component = c := by
        have hidx := (List.findIdx?_eq_some_iff_findIdx_eq.mp hfind).2
        have := @List.findIdx_getElem _ (fun item => item.component == c)
          ats (hidx ▸ hi)
        simpa [hidx] using this
      simp only [read_component, hfind] at h
      have hats' : ats' = ats.set i { ats.getD i caDefault with access := .Read } :=
        (Prod.ext_iff.mp h).1.symm
      have hoff : off = (ats.getD i caDefault).offset :=
        (Option.some.inj (Prod.ext_iff.mp h).2).symm
      subst hats'
      subst hoff
      have hfind' :
          (ats.set i { ats.getD i caDefault with access := .Read }).findIdx?
            (fun item => item.component == c) = some i := by
        have hidx := (List.findIdx?_eq_some_iff_findIdx_eq.mp hfind).2
        rw [List.findIdx?_eq_some_iff_findIdx_eq]
        refine ⟨by simpa using hi, ?_⟩
        exact findIdx_set_self hidx hi (by simp [List.getElem?_eq_getElem hi, hcomp])
      have hget' :
          (ats.set i { ats.getD i caDefault with access := .Read }).getD i caDefault =
            { ats.getD i caDefault with access := .Read } := by
        rw [List.getD_eq_getElem _ caDefault (by simpa using hi)]
        exact List.getElem_set_self (by simpa using hi)
      constructor
      · simp only [write_component, hfind', hget']
        simp
      · simp only [read_component, hfind', hget']

theorem c4_amended_witness :
    (read_component
        (write_component [⟨(0 : Nat), Access.Write, 16⟩] 0).1 0).2 = none :=
  ((c4_amended [⟨0, Access.Write, 16⟩] [] 0 16 (by decide)).1 (by decide)).1

/-- C10 (code bug): `ArchetypeAccess::access_component` with a requested
`Write` against a granted `Write` `swap_remove`s the grant and then reads
`self.access_types[index].offset`.  When the grant was the last entry the
index is now out of bounds (panic); otherwise the offset read belongs to the
moved-in entry (here `32`), not to the requested component (offset `16`). -/
theorem c10_access_component_write_bug :
    access_component [⟨0, Access.Write, 16⟩] .Write 0 = .panicked ∧
    access_component [⟨0, Access.Write, 16⟩, ⟨1, Access.Read, 32⟩] .Write 0 =
      .granted [⟨1, Access.Read, 32⟩] 32 ∧
    (32 : Nat) ≠ 16 := by decide

/-! ## Scheduler frontier merge (src/schedule.rs, `merge_access_types`) -/

/-- Both lists handled by `merge_access_types` are produced by
`sort_dedup_access_types` (or are unions of such lists), hence strictly
sorted by component. -/
def strictSorted (l : List ComponentAccess) : Prop :=
  l.Pairwise fun a b => a.component < b.component

/-- The loop of `merge_access_types`: walk `merge`, keeping a cursor `offset`
into `existing`; search `existing[offset..]` for the first entry whose
component is `>= next.component`; on an equal component require `Read`/`Read`
(else conflict, modelled as `none`); on a greater component insert `next`
before it; when no such entry exists push `next` at the end. -/
def mergeGo : List ComponentAccess → Nat → List ComponentAccess → Option (List ComponentAccess)
  | existing, _, [] => some existing
  | existing, offset, next :: rest =>
    match (existing.drop offset).findIdx?
        (fun e => decide (next.component ≤ e.component)) with
    | some index =>
      let entry := existing.getD (offset + index) caDefault
      if entry.component = next.component then
        match entry.access, next.access with
        | .Read, .Read => mergeGo existing (offset + 1) rest
        | _, _ => none
      else
        mergeGo (existing.insertIdx (offset + index) next) (offset + index + 1) rest
    | none => mergeGo (existing ++ [next]) (existing.length + 1) rest

/-- `fn merge_access_types(existing, merge) -> bool`: on success the updated
`existing` is returned with `true`; on a write conflict `existing` is cleared
and refilled with `merge`, returning `false`. -/
def merge_access_types (existing merge : List ComponentAccess) :
    List ComponentAccess × Bool :=
  match mergeGo existing 0 merge with
  | some result => (result, true)
  | none => (merge, false)

/-- Two lists have a (write) conflict when some component occurs in both and
the two occurrences are not both `Read`. -/
def hasConflict (existing rest : List ComponentAccess) : Prop :=
  ∃ e ∈ existing, ∃ m ∈ rest, e.component = m.component ∧
    ¬(e.access = .Read ∧ m.access = .Read)

theorem insertIdx_eq_take_cons_drop (l : List ComponentAccess) (n : Nat)
    (a : ComponentAccess) (hn : n ≤ l.length) :
    l.insertIdx n a = l.take n ++ a :: l.drop n := by
  induction l generalizing n with
  | nil =>
    have h0 : n = 0 := by simpa using hn
    subst h0
    simp [List.insertIdx_zero]
  | cons hd tl ih =>
    cases n with
    | zero => simp [List.insertIdx_zero]
    | succ n =>
      rw [List.insertIdx_succ_cons, ih n (by simpa using hn)]
      simp

/-- In a strictly component-sorted list, entries are determined by their
component. -/
theorem strictSorted_comp_inj {l : List ComponentAccess} (h : strictSorted l)
    {a b : ComponentAccess} (ha : a ∈ l) (hb : b ∈ l)
    (hc : a.component = b.component) : a = b := by
  induction l with
  | nil => simp at ha
  | cons x xs ih =>
    obtain ⟨hx, hxs⟩ := List.pairwise_cons.mp h
    rcases List.mem_cons.mp ha with rfl | ha'
    · rcases List.mem_cons.mp hb with rfl | hb'
      · rfl
      · exact absurd hc (by have := hx b hb'; omega)
    · rcases List.mem_cons.mp hb with rfl | hb'
      · exact absurd hc (by have := hx a ha'; omega)
      · exact ih hxs ha' hb'

/-- Inserting an entry whose component separates the prefix from the suffix
keeps the list strictly sorted. -/
theorem strictSorted_insertIdx {l : List ComponentAccess} {n : Nat}
    {a : ComponentAccess} (hn : n ≤ l.length) (hs : strictSorted l)
    (hbefore : ∀ e ∈ l.take n, e.component < a.component)
    (hafter : ∀ e ∈ l.drop n, a.component < e.component) :
    strictSorted (l.insertIdx n a) := by
  rw [insertIdx_eq_take_cons_drop l n a hn]
  have hsplit : List.Pairwise (fun a b => a.component < b.component)
      (List.take n l ++ List.drop n l) := by
    rw [List.take_append_drop]
    exact hs
  obtain ⟨hpt, hpd, hcross⟩ := List.pairwise_append.mp hsplit
  simp only [strictSorted]
  rw [List.pairwise_append]
  refine ⟨hpt, List.pairwise_cons.mpr ⟨hafter, hpd⟩, ?_⟩
  intro x hx y hy
  rcases List.mem_cons.mp hy with rfl | hy
  · exact hbefore x hx
  · exact hcross x hx y hy

theorem getElem_idx_congr {α : Type _} {l : List α} {i j : Nat} (hij : i = j)
    (hj : j < l.length) : getElem l i (hij ▸ hj) = getElem l j hj := by
  subst hij
  rfl

/-- Full specification of the `merge_access_types` loop, by induction over
the `merge` list with the cursor invariant: every entry of `existing` below
the cursor has a component smaller than every remaining `merge` component. -/
theorem mergeGo_spec (rest : List ComponentAccess) :
    ∀ (existing : List ComponentAccess) (offset : Nat),
      strictSorted existing → strictSorted rest →
      (∀ e ∈ existing.take offset, ∀ m ∈ rest, e.component < m.component) →
      ((mergeGo existing offset rest = none ↔ hasConflict existing rest) ∧
       (∀ result, mergeGo existing offset rest = some result →
         strictSorted result ∧
         ∀ x, (x ∈ result ↔ x ∈ existing ∨
           (x ∈ rest ∧ ∀ e ∈ existing, e.component ≠ x.component)))) := by
  induction rest with
  | nil =>
    intro existing offset hex _ _
    constructor
    · simp [mergeGo, hasConflict]
    · intro result h
      simp only [mergeGo] at h
      obtain rfl := Option.some.inj h
      exact ⟨hex, fun x => by simp⟩
  | cons next rest' ih =>
    intro existing offset hex hr hinv
    obtain ⟨hnextlt, hr'⟩ := List.pairwise_cons.mp hr
    cases hfind : (existing.drop offset).findIdx?
        (fun e => decide (next.component ≤ e.component)) with
    | none =>
      have heq : mergeGo existing offset (next :: rest') =
          mergeGo (existing ++ [next]) (existing.length + 1) rest' := by
        simp only [mergeGo, hfind]
      have hall : ∀ e ∈ existing.drop offset, e.component < next.component := by
        intro e he
        have h1 := List.findIdx?_eq_none_iff.mp hfind e he
        have h2 : ¬ (next.component ≤ e.component) := by simpa using h1
        omega
      have hallex : ∀ e ∈ existing, e.component < next.component := by
        intro e he
        have hmem : e ∈ existing.take offset ++ existing.drop offset := by
          rw [List.take_append_drop]
          exact he
        rcases List.mem_append.mp hmem with h | h
        · exact hinv e h next (List.mem_cons_self _ _)
        · exact hall e h
      have hex' : strictSorted (existing ++ [next]) := by
        simp only [strictSorted]
        rw [List.pairwise_append]
        refine ⟨hex, List.pairwise_singleton _ _, ?_⟩
        intro a ha b hb
        rw [List.mem_singleton] at hb
        subst hb
        exact hallex a ha
      have hinv' : ∀ e ∈ (existing ++ [next]).take (existing.length + 1),
          ∀ m ∈ rest', e.component < m.component := by
        intro e he m hm
        rw [List.take_of_length_le (by simp)] at he
        rcases List.mem_append.mp he with h | h
        · exact lt_trans (hallex e h) (hnextlt m hm)
        · rw [List.mem_singleton] at h
          subst h
          exact hnextlt m hm
      have IH := ih (existing ++ [next]) (existing.length + 1) hex' hr' hinv'
      constructor
      · rw [heq, IH.1]
        constructor
        · rintro ⟨e, he, m, hm, hcomp, hnr⟩
          rcases List.mem_append.mp he with h | h
          · exact ⟨e, h, m, List.mem_cons_of_mem _ hm, hcomp, hnr⟩
          · rw [List.mem_singleton] at h
            subst h
            exact absurd hcomp (by have := hnextlt m hm; omega)
        · rintro ⟨e, he, m, hm, hcomp, hnr⟩
          rcases List.mem_cons.mp hm with rfl | hm
          · exact absurd hcomp (by have := hallex e he; omega)
          · exact ⟨e, List.mem_append_left _ he, m, hm, hcomp, hnr⟩
      · intro result h
        rw [heq] at h
        obtain ⟨hrs, hrm⟩ := IH.2 result h
        refine ⟨hrs, fun x => ?_⟩
        rw [hrm x]
        constructor
        · rintro (h1 | ⟨hx, hne⟩)
          · rcases List.mem_append.mp h1 with h1 | h1
            · exact Or.inl h1
            · rw [List.mem_singleton] at h1
              subst h1
              exact Or.inr ⟨List.mem_cons_self _ _,
                fun e he => by have := hallex e he; omega⟩
          · exact Or.inr ⟨List.mem_cons_of_mem _ hx,
              fun e he => hne e (List.mem_append_left _ he)⟩
        · rintro (h1 | ⟨hx, hne⟩)
          · exact Or.inl (List.mem_append_left _ h1)
          · rcases List.mem_cons.mp hx with rfl | hx
            · exact Or.inl (List.mem_append_right _ (List.mem_singleton_self _))
            · refine Or.inr ⟨hx, fun e he => ?_⟩
              rcases List.mem_append.mp he with h1 | h1
              · exact hne e h1
              · rw [List.mem_singleton] at h1
                rw [h1]
                have := hnextlt x hx
                omega
    | some index =>
      have hidxlt : index < (existing.drop offset).length :=
        (List.findIdx?_eq_some_iff_findIdx_eq.mp hfind).1
      have hdroplen := List.length_drop offset existing
      have hofflt : offset < existing.length := by omega
      have hpos : offset + index < existing.length := by omega
      have hfindIdx := (List.findIdx?_eq_some_iff_findIdx_eq.mp hfind).2
      have hentry : existing.getD (offset + index) caDefault = existing[offset + index] :=
        List.getD_eq_getElem existing caDefault hpos
      have hdropget : getElem (existing.drop offset) index hidxlt =
          existing[offset + index] :=
        List.getElem_drop existing
      have hgeq : next.component ≤ existing[offset + index].component := by
        have hp := @List.findIdx_getElem _
          (fun e => decide (next.component ≤ e.component))
          (existing.drop offset) (hfindIdx ▸ hidxlt)
        rw [getElem_idx_congr hfindIdx hidxlt, hdropget] at hp
        simpa using hp
      have hbefore : ∀ j (hj : j < index),
          (getElem existing (offset + j)
            (by omega : offset + j < existing.length)).component <
            next.component := by
        intro j hj
        have hjlt : j < (existing.drop offset).length := by omega
        have hp := @List.not_of_lt_findIdx _
          (fun e => decide (next.component ≤ e.component))
          (existing.drop offset) j (by omega : j < _)
        rw [List.getElem_drop existing] at hp
        have hnle : ¬ (next.component ≤ existing[offset + j].component) := by
          simpa using hp
        exact Nat.lt_of_not_le hnle
      have hbeforeAll : ∀ e ∈ existing.take (offset + index),
          e.component < next.component := by
        intro e he
        obtain ⟨j, hj, hje⟩ := List.mem_take_iff_getElem.mp he
        have hjlen : j < existing.length :=
          Nat.lt_of_lt_of_le hj (Nat.min_le_right _ _)
        by_cases hjo : j < offset
        · have hemem : e ∈ existing.take offset :=
            List.mem_take_iff_getElem.mpr ⟨j, by omega, hje⟩
          exact hinv e hemem next (List.mem_cons_self _ _)
        · have hji : j - offset < index := by
            have := Nat.lt_of_lt_of_le hj (Nat.min_le_left _ _)
            omega
          have hb := hbefore (j - offset) hji
          have hrw : offset + (j - offset) = j := by omega
          rw [getElem_idx_congr hrw hjlen] at hb
          rw [← hje]
          exact hb
      have hentrymem : existing[offset + index] ∈ existing := List.getElem_mem hpos
      by_cases hceq : (existing.getD (offset + index) caDefault).component = next.component
      · -- equal components: `Read`/`Read` merges, anything else conflicts
        have hceq' : existing[offset + index].component = next.component := by
          rw [← hentry]
          exact hceq
        cases hA : (existing.getD (offset + index) caDefault).access with
        | Read =>
          cases hB : next.access with
          | Read =>
            have heq : mergeGo existing offset (next :: rest') =
                mergeGo existing (offset + 1) rest' := by
              simp only [mergeGo, hfind, if_pos hceq, hA, hB]
            have hinv'' : ∀ e ∈ existing.take (offset + 1),
                ∀ m ∈ rest', e.component < m.component := by
              intro e he m hm
              obtain ⟨j, hj, hje⟩ := List.mem_take_iff_getElem.mp he
              have hjlen : j < existing.length := by
                exact Nat.lt_of_lt_of_le hj (Nat.min_le_right _ _)
              by_cases hjo : j < offset
              · have hemem : e ∈ existing.take offset :=
                  List.mem_take_iff_getElem.mpr ⟨j, by omega, hje⟩
                exact lt_trans (hinv e hemem next (List.mem_cons_self _ _)) (hnextlt m hm)
              · have hj0 : j = offset := by
                  have := Nat.lt_of_lt_of_le hj (Nat.min_le_left _ _)
                  omega
                have hle : existing[j].component ≤ next.component := by
                  cases hi0 : index with
                  | zero =>
                    have hrw : offset + index = j := by omega
                    have hx := @getElem_idx_congr _ existing _ _ hrw hjlen
                    rw [← hx]
                    exact Nat.le_of_eq hceq'
                  | succ k =>
                    have hb := hbefore 0 (by omega)
                    have hrw : offset + 0 = j := by omega
                    rw [getElem_idx_congr hrw hjlen] at hb
                    omega
                rw [← hje]
                exact lt_of_le_of_lt hle (hnextlt m hm)
            have IH := ih existing (offset + 1) hex hr' hinv''
            constructor
            · rw [heq, IH.1]
              constructor
              · rintro ⟨e, he, m, hm, hcomp, hnr⟩
                exact ⟨e, he, m, List.mem_cons_of_mem _ hm, hcomp, hnr⟩
              · rintro ⟨e, he, m, hm, hcomp, hnr⟩
                rcases List.mem_cons.mp hm with rfl | hm
                · have hee : e = existing[offset + index] :=
                    strictSorted_comp_inj hex he hentrymem (by omega)
                  subst hee
                  rw [hentry] at hA
                  exact absurd ⟨hA, hB⟩ hnr
                · exact ⟨e, he, m, hm, hcomp, hnr⟩
            · intro result h
              rw [heq] at h
              obtain ⟨hrs, hrm⟩ := IH.2 result h
              refine ⟨hrs, fun x => ?_⟩
              rw [hrm x]
              constructor
              · rintro (h1 | ⟨hx, hne⟩)
                · exact Or.inl h1
                · exact Or.inr ⟨List.mem_cons_of_mem _ hx, hne⟩
              · rintro (h1 | ⟨hx, hne⟩)
                · exact Or.inl h1
                · rcases List.mem_cons.mp hx with rfl | hx
                  · exact absurd hceq' (hne _ hentrymem)
                  · exact Or.inr ⟨hx, hne⟩
          | Write =>
            have heq : mergeGo existing offset (next :: rest') = none := by
              simp only [mergeGo, hfind, if_pos hceq, hA, hB]
            constructor
            · rw [heq]
              simp only [true_iff]
              refine ⟨existing[offset + index], hentrymem, next,
                List.mem_cons_self _ _, hceq', ?_⟩
              rintro ⟨-, hn⟩
              rw [hB] at hn
              exact absurd hn (by simp)
            · intro result h
              rw [heq] at h
              exact absurd h (by simp)
        | Write =>
          have heq : mergeGo existing offset (next :: rest') = none := by
            cases hB : next.access <;>
              simp only [mergeGo, hfind, if_pos hceq, hA, hB]
          constructor
          · rw [heq]
            simp only [true_iff]
            refine ⟨existing[offset + index], hentrymem, next,
              List.mem_cons_self _ _, hceq', ?_⟩
            rintro ⟨he2, -⟩
            rw [← hentry, hA] at he2
            exact absurd he2 (by simp)
          · intro result h
            rw [heq] at h
            exact absurd h (by simp)
      · -- strictly greater component at the found index: insert `next` there
        have hcne' : existing[offset + index].component ≠ next.component := by
          rw [← hentry]
          exact hceq
        have hgt : next.component < existing[offset + index].component := by omega
        have hposle : offset + index ≤ existing.length := Nat.le_of_lt hpos
        have hdropall : ∀ e ∈ existing.drop (offset + index),
            next.component < e.component := by
          intro e he
          have hd : existing.drop (offset + index) =
              existing[offset + index] :: existing.drop (offset + index + 1) :=
            List.drop_eq_getElem_cons hpos
          rw [hd] at he
          rcases List.mem_cons.mp he with rfl | he'
          · exact hgt
          · have hpd : (existing.drop (offset + index)).Pairwise
                (fun a b => a.component < b.component) :=
              List.Pairwise.sublist (List.drop_sublist _ existing) hex
            rw [hd] at hpd
            have := (List.pairwise_cons.mp hpd).1 e he'
            omega
        have hsorted' : strictSorted (existing.insertIdx (offset + index) next) :=
          strictSorted_insertIdx hposle hex hbeforeAll hdropall
        have hnotin : ∀ e ∈ existing, e.component ≠ next.component := by
          intro e he
          have hmem : e ∈ existing.take (offset + index) ++ existing.drop (offset + index) := by
            rw [List.take_append_drop]
            exact he
          rcases List.mem_append.mp hmem with h | h
          · have := hbeforeAll e h
            omega
          · have := hdropall e h
            omega
        have hmemins : ∀ x, x ∈ existing.insertIdx (offset + index) next ↔
            x = next ∨ x ∈ existing := fun x => List.mem_insertIdx hposle
        have htake : (existing.insertIdx (offset + index) next).take (offset + index + 1) =
            existing.take (offset + index) ++ [next] := by
          rw [insertIdx_eq_take_cons_drop _ _ _ hposle]
          have hlen : (existing.take (offset + index)).length = offset + index := by
            simp [List.length_take]
            omega
          rw [show offset + index + 1 = (existing.take (offset + index)).length + 1 from by omega]
          rw [List.take_append]
          simp
        have hinv' : ∀ e ∈ (existing.insertIdx (offset + index) next).take (offset + index + 1),
            ∀ m ∈ rest', e.component < m.component := by
          intro e he m hm
          rw [htake] at he
          rcases List.mem_append.mp he with h | h
          · exact lt_trans (hbeforeAll e h) (hnextlt m hm)
          · rw [List.mem_singleton] at h
            subst h
            exact hnextlt m hm
        have heq : mergeGo existing offset (next :: rest') =
            mergeGo (existing.insertIdx (offset + index) next) (offset + index + 1) rest' := by
          simp only [mergeGo, hfind, if_neg hceq]
        have IH := ih (existing.insertIdx (offset + index) next) (offset + index + 1)
          hsorted' hr' hinv'
        constructor
        · rw [heq, IH.1]
          constructor
          · rintro ⟨e, he, m, hm, hcomp, hnr⟩
            rcases (hmemins e).mp he with rfl | he'
            · exact absurd hcomp (by have := hnextlt m hm; omega)
            · exact ⟨e, he', m, List.mem_cons_of_mem _ hm, hcomp, hnr⟩
          · rintro ⟨e, he, m, hm, hcomp, hnr⟩
            rcases List.mem_cons.mp hm with rfl | hm
            · exact absurd hcomp (hnotin e he)
            · exact ⟨e, (hmemins e).mpr (Or.inr he), m, hm, hcomp, hnr⟩
        · intro result h
          rw [heq] at h
          obtain ⟨hrs, hrm⟩ := IH.2 result h
          refine ⟨hrs, fun x => ?_⟩
          rw [hrm x]
          constructor
          · rintro (h1 | ⟨hx, hne⟩)
            · rcases (hmemins x).mp h1 with rfl | h1
              · exact Or.inr ⟨List.mem_cons_self _ _,
                  fun e he => hnotin e he⟩
              · exact Or.inl h1
            · exact Or.inr ⟨List.mem_cons_of_mem _ hx,
                fun e he => hne e ((hmemins e).mpr (Or.inr he))⟩
          · rintro (h1 | ⟨hx, hne⟩)
            · exact Or.inl ((hmemins x).mpr (Or.inr h1))
            · rcases List.mem_cons.mp hx with rfl | hx
              · exact Or.inl ((hmemins x).mpr (Or.inl rfl))
              · refine Or.inr ⟨hx, fun e he => ?_⟩
                rcases (hmemins e).mp he with he0 | he'
                · rw [he0]
                  have := hnextlt x hx
                  omega
                · exact hne e he'

/-- Per-archetype frontier state of `Schedule::execute_rayon`:
the node indices of the last compatible group and the union of their access
types (`struct ArchetypeNodeAccess`). -/
structure ArchetypeNodeAccess where
  nodes : List Nat
  access_types : List ComponentAccess
deriving DecidableEq, Repr

/-- Placing system `next` on one archetype: try to merge its intent into the
frontier union; on success join the frontier (no waits), on failure wait for
every member of the frontier and reset it to `{next}`. -/
def placeStep (next : Nat) (st : ArchetypeNodeAccess)
    (intent : List ComponentAccess) : ArchetypeNodeAccess × List Nat :=
  let m := merge_access_types st.access_types intent
  if m.2 then ({ nodes := st.nodes ++ [next], access_types := m.1 }, [])
  else ({ nodes := [next], access_types := m.1 }, st.nodes)

/-- Placing system `next` across all archetypes, concatenating the waits
collected from every archetype (the loop body of `execute_rayon`). -/
def placeSystem (next : Nat) :
    List (ArchetypeNodeAccess × List ComponentAccess) →
      List ArchetypeNodeAccess × List Nat
  | [] => ([], [])
  | p :: ps =>
    let r := placeStep next p.1 p.2
    let rest := placeSystem next ps
    (r.1 :: rest.1, r.2 ++ rest.2)

theorem placeSystem_mem_waits (next : Nat)
    (archs : List (ArchetypeNodeAccess × List ComponentAccess)) (w : Nat) :
    w ∈ (placeSystem next archs).2 ↔
      ∃ p ∈ archs, (merge_access_types p.1.access_types p.2).2 = false ∧
        w ∈ p.1.nodes := by
  induction archs with
  | nil => simp [placeSystem]
  | cons p ps ih =>
    simp only [placeSystem]
    rw [List.mem_append]
    constructor
    · rintro (h | h)
      · simp only [placeStep] at h
        by_cases hb : (merge_access_types p.1.access_types p.2).2 = true
        · rw [if_pos hb] at h
          simp at h
        · rw [if_neg hb] at h
          exact ⟨p, List.mem_cons_self _ _, by simpa using hb, h⟩
      · obtain ⟨q, hq, hqf, hqw⟩ := ih.mp h
        exact ⟨q, List.mem_cons_of_mem _ hq, hqf, hqw⟩
    · rintro ⟨q, hq, hqf, hqw⟩
      rcases List.mem_cons.mp hq with rfl | hq
      · left
        simp only [placeStep]
        rw [if_neg (by simp [hqf])]
        exact hqw
      · right
        exact ih.mpr ⟨q, hq, hqf, hqw⟩

/-- C2: with both lists sorted by component, `merge_access_types` returns
`true` iff every component occurring in both lists is `Read` in both; on
success `existing` becomes the sorted union of the two lists (an entry is in
the result iff it was in `existing`, or in `merge` with a component absent
from `existing`); on failure `existing` is replaced by `merge`.  A placed
system acquires as waits exactly the frontier members of the archetypes where
the merge failed. -/
theorem c2_merge_access_types_spec (existing merge : List ComponentAccess)
    (hex : strictSorted existing) (hm : strictSorted merge) :
    ((merge_access_types existing merge).2 = true ↔
      ∀ e ∈ existing, ∀ x ∈ merge, e.component = x.component →
        e.access = .Read ∧ x.access = .Read) ∧
    ((merge_access_types existing merge).2 = true →
      strictSorted (merge_access_types existing merge).1 ∧
      ∀ x, (x ∈ (merge_access_types existing merge).1 ↔ x ∈ existing ∨
        (x ∈ merge ∧ ∀ e ∈ existing, e.component ≠ x.component))) ∧
    ((merge_access_types existing merge).2 = false →
      (merge_access_types existing merge).1 = merge) ∧
    (∀ (next : Nat) (archs : List (ArchetypeNodeAccess × List ComponentAccess))
        (w : Nat),
      w ∈ (placeSystem next archs).2 ↔
        ∃ p ∈ archs, (merge_access_types p.1.access_types p.2).2 = false ∧
          w ∈ p.1.nodes) := by
  have spec := mergeGo_spec merge existing 0 hex hm (by intro e he; simp at he)
  cases hgo : mergeGo existing 0 merge with
  | some result =>
    have hres : merge_access_types existing merge = (result, true) := by
      rw [merge_access_types, hgo]
    obtain ⟨hsorted, hmem⟩ := spec.2 result hgo
    have hnoconf : ¬ hasConflict existing merge := by
      intro hc
      have := spec.1.mpr hc
      rw [hgo] at this
      exact absurd this (by simp)
    refine ⟨?_, ?_, ?_, placeSystem_mem_waits⟩
    · rw [hres]
      simp only [true_iff]
      intro e he x hx hcomp
      by_contra hnr
      exact hnoconf ⟨e, he, x, hx, hcomp, by tauto⟩
    · intro _
      rw [hres]
      exact ⟨hsorted, hmem⟩
    · intro hfalse
      rw [hres] at hfalse
      exact absurd hfalse (by simp)
  | none =>
    have hres : merge_access_types existing merge = (merge, false) := by
      rw [merge_access_types, hgo]
    have hconf : hasConflict existing merge := spec.1.mp hgo
    refine ⟨?_, ?_, ?_, placeSystem_mem_waits⟩
    · rw [hres]
      simp only [Bool.false_eq_true, false_iff]
      intro hall
      obtain ⟨e, he, x, hx, hcomp, hnr⟩ := hconf
      exact hnr (hall e he x hx hcomp)
    · intro htrue
      rw [hres] at htrue
      exact absurd htrue (by simp)
    · intro _
      rw [hres]

theorem c2_merge_access_types_spec_witness :
    merge_access_types [⟨0, Access.Read, 0⟩, ⟨2, Access.Read, 4⟩]
        [⟨1, Access.Read, 8⟩, ⟨2, Access.Read, 4⟩] =
      ([⟨0, Access.Read, 0⟩, ⟨1, Access.Read, 8⟩, ⟨2, Access.Read, 4⟩], true) := by
  have h := c2_merge_access_types_spec
    [⟨0, Access.Read, 0⟩, ⟨2, Access.Read, 4⟩]
    [⟨1, Access.Read, 8⟩, ⟨2, Access.Read, 4⟩]
    (by simp [strictSorted]) (by simp [strictSorted])
  have hok : (merge_access_types [⟨0, Access.Read, 0⟩, ⟨2, Access.Read, 4⟩]
      [⟨1, Access.Read, 8⟩, ⟨2, Access.Read, 4⟩]).2 = true := by
    rw [h.1]
    decide
  have hmem := h.2.1 hok
  decide

/-! ## Component metadata and archetype layout (src/component.rs, src/archetype/mod.rs) -/

/-- `ComponentInfo`: id (`TypeId`), size and alignment of the component's
layout.  `Ord` on `ComponentInfo`/`ComponentId` compares only the id. -/
structure ComponentInfo where
  id : Nat
  size : Nat
  align : Nat
deriving DecidableEq, Repr

/-- `size_of::<Entity>()`: `Entity { generation: NonZeroU64, index: usize }`
is 16 bytes with alignment 8 on a 64-bit target. -/
def entitySizeOf : Nat := 16

/-- `align_of::<Entity>()`. -/
def entityAlignOf : Nat := 8

/-- `usize::trailing_zeros`, with the 64-bit convention
`trailing_zeros(0) = 64`. -/
def tzGo : Nat → Nat → Nat
  | 0, _ => 0
  | fuel + 1, n => if n % 2 = 0 ∧ n ≠ 0 then tzGo fuel (n / 2) + 1 else 0

def trailing_zeros (n : Nat) : Nat :=
  if n = 0 then 64 else tzGo n n

/-- `usize::next_power_of_two`: the least power of two `≥ n` (1 for `n ≤ 1`),
computed by the fueled halving recursion `npot n = 2 * npot (ceil (n / 2))`. -/
def npotGo : Nat → Nat → Nat
  | 0, _ => 1
  | fuel + 1, n => if n ≤ 1 then 1 else 2 * npotGo fuel ((n + 1) / 2)

def next_power_of_two (n : Nat) : Nat := npotGo n n

/-- Chunk-size configuration: `ALEX_CHUNK_UPPER_LIMIT` (default 65536),
`ALEX_CHUNK_LOWER_LIMIT` (default 512) and the detected
`CACHE_LINE_SIZE_HINT`. -/
structure ChunkConfig where
  upper : Nat
  lower : Nat
  cacheLineHint : Nat
deriving DecidableEq, Repr

def defaultConfig : ChunkConfig := ⟨65536, 512, 64⟩

/-- The panics `ArchetypeInfo::new` can raise, in source order. -/
inductive ArchetypeError where
  | EntityTooLarge : ArchetypeError
  | MinAlignTooLarge : ArchetypeError
  | ChunkSizeOverflow : ArchetypeError
  | LayoutOverflow : ArchetypeError
  | CapacityOverflow : ArchetypeError
deriving DecidableEq, Repr

/-- `struct ComponentData { info, offset }`. -/
structure ComponentData where
  info : ComponentInfo
  offset : Nat
deriving DecidableEq, Repr

/-- `struct ArchetypeInfo { chunk_layout, chunk_capacity, components }`. -/
structure ArchetypeInfo where
  chunkSize : Nat
  chunkAlign : Nat
  chunk_capacity : Nat
  components : List ComponentData
deriving DecidableEq, Repr

/-- `entity_size`: sum of component sizes plus the entity back-index. -/
def entitySize (components : List ComponentInfo) : Nat :=
  (components.map (·.size)).sum + entitySizeOf

/-- The per-component offsets: a running byte offset starting at
`size_of::<usize>()` (the back-index column), each component's chunk offset
being `chunk_capacity * (running offset before it)`. -/
def computeOffsets (cap : Nat) : Nat → List ComponentInfo → List ComponentData
  | _, [] => []
  | off, c :: cs => { info := c, offset := cap * off } :: computeOffsets cap (off + c.size) cs

/-- `ArchetypeInfo::new(components)` (components assumed sorted by id, which
the callers establish): compute the entity size, the minimum alignment, the
chunk size hint, the gcd-derived capacity hint and the capacity, failing at
each `assert!`/`expect` of the source with the corresponding error. -/
def ArchetypeInfo.new (cfg : ChunkConfig) (components : List ComponentInfo) :
    Except ArchetypeError ArchetypeInfo :=
  let entity_size := entitySize components
  if entity_size > cfg.upper then .error .EntityTooLarge
  else
    let min_align :=
      ((components.map (fun i => i.align - 1)).foldl (· ||| ·) 0 |||
        (entityAlignOf - 1)) + 1
    if min_align ≥ 2 ^ 32 then .error .MinAlignTooLarge
    else
      let chunk_hint :=
        next_power_of_two (Nat.max (Nat.min (Nat.max cfg.cacheLineHint 1) cfg.upper) min_align)
      let size_gcd := 2 ^
        ((components.map (fun i => trailing_zeros i.size)).foldl Nat.min
          (Nat.min (trailing_zeros entitySizeOf) (trailing_zeros chunk_hint)))
      let chunk_capacity_hint := Nat.max (chunk_hint / size_gcd) 1
      let chunk_capacity_min := next_power_of_two cfg.lower
      let chunk_capacity := Nat.max chunk_capacity_min chunk_capacity_hint
      if chunk_capacity * entity_size ≥ 2 ^ 64 then .error .ChunkSizeOverflow
      else
        let chunk_size := chunk_capacity * entity_size
        if chunk_size + (chunk_hint - 1) > 2 ^ 63 - 1 then .error .LayoutOverflow
        else if chunk_capacity ≥ 2 ^ 32 then .error .CapacityOverflow
        else .ok {
          chunkSize := chunk_size
          chunkAlign := chunk_hint
          chunk_capacity := chunk_capacity
          components := computeOffsets chunk_capacity 8 components }

/-- Inversion of a successful `ArchetypeInfo::new`: the capacity is at least
one (it is a `max` with a `max(_, 1)`) and the stored component data is the
running-offset packing of the input components. -/
theorem ArchetypeInfo.new_ok_inv (cfg : ChunkConfig) (components : List ComponentInfo)
    (info : ArchetypeInfo) (h : ArchetypeInfo.new cfg components = .ok info) :
    1 ≤ info.chunk_capacity ∧
    info.components = computeOffsets info.chunk_capacity 8 components := by
  simp only [ArchetypeInfo.new] at h
  split at h
  · exact absurd h (by simp)
  · split at h
    · exact absurd h (by simp)
    · split at h
      · exact absurd h (by simp)
      · split at h
        · exact absurd h (by simp)
        · split at h
          · exact absurd h (by simp)
          · obtain rfl := Except.ok.inj h
            refine ⟨?_, rfl⟩
            exact le_trans (Nat.le_max_right _ 1) (Nat.le_max_right _ _)

theorem computeOffsets_map_info (cap : Nat) :
    ∀ (off : Nat) (l : List ComponentInfo),
      (computeOffsets cap off l).map (·.info) = l := by
  intro off l
  induction l generalizing off with
  | nil => rfl
  | cons c cs ih => simp [computeOffsets, ih]

/-- C7: archetype creation always yields a chunk capacity of at least 1, and
when the total per-entity size (components plus the entity back-index)
exceeds the configured upper chunk-size limit, creation fails with the
`EntityTooLarge` error. -/
theorem c7_archetype_capacity (cfg : ChunkConfig) (components : List ComponentInfo) :
    (∀ info, ArchetypeInfo.new cfg components = .ok info → 1 ≤ info.chunk_capacity) ∧
    (entitySize components > cfg.upper →
      ArchetypeInfo.new cfg components = .error .EntityTooLarge) := by
  constructor
  · intro info h
    exact (ArchetypeInfo.new_ok_inv cfg components info h).1
  · intro h
    simp only [ArchetypeInfo.new]
    rw [if_pos h]

theorem c7_archetype_capacity_witness :
    (1 ≤ (512 : Nat)) ∧
    ArchetypeInfo.new defaultConfig [⟨0, 70000, 8⟩] = .error .EntityTooLarge := by
  constructor
  · exact (c7_archetype_capacity defaultConfig [⟨0, 4, 4⟩]).1
      ⟨10240, 64, 512, [⟨⟨0, 4, 4⟩, 4096⟩]⟩ (by rfl)
  · exact (c7_archetype_capacity defaultConfig [⟨0, 70000, 8⟩]).2 (by decide)

/-! ## Entity directory (src/entity.rs) -/

/-- `Location` as consumed by the `World` paths (`crate::archetype::Location`):
an archetype index and the entity's row in it.  The directory code is
agnostic to the payload. -/
structure Location where
  archetype : Nat
  entity : Nat
deriving DecidableEq, Repr

/-- `struct Entity { generation, index }`. -/
structure Entity where
  generation : Nat
  index : Nat
deriving DecidableEq, Repr

/-- `struct Entry { generation: GenerationCounter, location }`; the counter
starts at 1 and is only ever incremented. -/
structure Entry where
  generation : Nat
  location : Location
deriving DecidableEq, Repr

def Entry.new : Entry := ⟨1, ⟨0, 0⟩⟩

def Entry.with_location (loc : Location) : Entry := ⟨1, loc⟩

/-- `struct Entities`: the entry array, the free list (a vector popped from
the back), the slow-path entries and the deferred drop queue (drained in push
order). -/
structure Entities where
  entries : List Entry
  free : List Nat
  slow_entries : List Entry
  dropQueue : List Entity
deriving DecidableEq, Repr

def Entities.new (initial_free initial_drop : Nat) : Entities :=
  { entries := List.replicate initial_free Entry.new
    free := List.range initial_free
    slow_entries := []
    dropQueue := [] }

/-- Generation stored at slot `i` (fresh slots and out-of-range reads behave
like a fresh counter, value 1). -/
def genAt (s : Entities) (i : Nat) : Nat :=
  (s.entries.getD i Entry.new).generation

/-- `Entities::spawn_mut`: pop a free index and overwrite its location,
returning a handle carrying the slot's current generation; with the free
list exhausted, append a fresh entry at the end. -/
def Entities.spawn_mut (s : Entities) (loc : Location) : Entities × Entity :=
  match s.free.getLast? with
  | some index =>
    let entries := s.entries.set index
      { (s.entries.getD index Entry.new) with location := loc }
    ({ s with entries := entries, free := s.free.dropLast },
     { generation := (entries.getD index Entry.new).generation, index := index })
  | none =>
    let index := s.entries.length
    let entry := Entry.with_location loc
    ({ s with entries := s.entries ++ [entry] },
     { generation := entry.generation, index := index })

/-- `Entities::drop`: only pushes the handle onto the deferred drop queue. -/
def Entities.drop (s : Entities) (e : Entity) : Entities :=
  { s with dropQueue := s.dropQueue ++ [e] }

/-- The drop-processing loop of `Entities::maintenance`: bump the generation
of each dropped slot and return the index to the free list.  (The `drop_fn`
callback only touches archetype storage, not the directory.) -/
def maintGo : List Entry → List Nat → List Entity → List Entry × List Nat
  | entries, free, [] => (entries, free)
  | entries, free, e :: rest =>
    maintGo
      (entries.set e.index
        { (entries.getD e.index Entry.new) with
          generation := (entries.getD e.index Entry.new).generation + 1 })
      (free ++ [e.index]) rest

/-- `Entities::maintenance`: append the slow entries, process the drop queue,
then grow the entry array by the remaining excess and refresh the free
list. -/
def Entities.maintenance (s : Entities) : Entities :=
  let entries0 := s.entries ++ s.slow_entries
  let excess := s.slow_entries.length - s.dropQueue.length
  let r := maintGo entries0 s.free s.dropQueue
  if 0 < excess then
    { entries := r.1 ++ List.replicate excess Entry.new
      free := r.2 ++ List.range' r.1.length excess
      slow_entries := []
      dropQueue := [] }
  else
    { entries := r.1, free := r.2, slow_entries := [], dropQueue := [] }

/-- `Entities::get`: the handle is valid iff its generation equals the
slot's. -/
def Entities.get (s : Entities) (e : Entity) : Option Location :=
  match s.entries[e.index]? with
  | none => none
  | some entry =>
    if entry.generation = e.generation then some entry.location else none

/-- The operations a directory undergoes, for the "never validates again"
part of the generation-aliasing property. -/
inductive EntOp where
  | spawn : Location → EntOp
  | drop : Entity → EntOp
  | maintain : EntOp

def applyOp (s : Entities) : EntOp → Entities
  | .spawn loc => (s.spawn_mut loc).1
  | .drop e => s.drop e
  | .maintain => s.maintenance

def applyOps (s : Entities) (ops : List EntOp) : Entities :=
  ops.foldl applyOp s

/-- List-level generation-at-slot. -/
def genAtL (entries : List Entry) (i : Nat) : Nat :=
  (entries.getD i Entry.new).generation

theorem genAt_eq_genAtL (s : Entities) (i : Nat) : genAt s i = genAtL s.entries i := rfl

theorem genAtL_set (entries : List Entry) (i : Nat) (x : Entry) (j : Nat) :
    genAtL (entries.set i x) j =
      if i = j ∧ i < entries.length then x.generation else genAtL entries j := by
  by_cases hij : i = j
  · subst hij
    by_cases hlen : i < entries.length
    · simp [genAtL, List.getD_eq_getElem?_getD, List.getElem?_set_self hlen, hlen]
    · have h1 : (entries.set i x)[i]? = none := by
        rw [List.getElem?_eq_none]
        rw [List.length_set]
        omega
      have h2 : entries[i]? = none := by
        rw [List.getElem?_eq_none]
        omega
      simp [genAtL, List.getD_eq_getElem?_getD, h1, h2, hlen]
  · simp [genAtL, List.getD_eq_getElem?_getD, List.getElem?_set_ne hij, hij]

theorem maintGo_length (queue : List Entity) :
    ∀ entries free, (maintGo entries free queue).1.length = entries.length := by
  induction queue with
  | nil => intro entries free; rfl
  | cons q rest ih =>
    intro entries free
    simp only [maintGo]
    rw [ih]
    exact List.length_set entries _ _

theorem maintGo_mono (queue : List Entity) :
    ∀ entries free i, genAtL entries i ≤ genAtL (maintGo entries free queue).1 i := by
  induction queue with
  | nil => intro entries free i; exact Nat.le_refl _
  | cons q rest ih =>
    intro entries free i
    simp only [maintGo]
    refine Nat.le_trans ?_ (ih _ _ i)
    rw [genAtL_set]
    by_cases hc : q.index = i ∧ q.index < entries.length
    · rw [if_pos hc]
      simp only [genAtL]
      rw [hc.1]
      omega
    · rw [if_neg hc]

theorem maintGo_bump (queue : List Entity) :
    ∀ entries free (e : Entity), e ∈ queue → e.index < entries.length →
      genAtL entries e.index + 1 ≤ genAtL (maintGo entries free queue).1 e.index := by
  induction queue with
  | nil => intro _ _ _ h; simp at h
  | cons q rest ih =>
    intro entries free e he hlen
    rcases List.mem_cons.mp he with rfl | he'
    · simp only [maintGo]
      refine Nat.le_trans ?_ (maintGo_mono rest _ _ e.index)
      rw [genAtL_set, if_pos ⟨rfl, hlen⟩]
      simp [genAtL]
    · simp only [maintGo]
      refine Nat.le_trans ?_ (ih _ _ e he' (by rw [List.length_set]; exact hlen))
      have hstep := genAtL_set entries q.index
        { (entries.getD q.index Entry.new) with
          generation := (entries.getD q.index Entry.new).generation + 1 } e.index
      rw [genAtL_set]
      by_cases hc : q.index = e.index ∧ q.index < entries.length
      · rw [if_pos hc]
        simp only [genAtL]
        rw [hc.1]
        omega
      · rw [if_neg hc]

/-- With an empty slow-entry list (the only state our modelled operations
produce), `maintenance` takes the no-excess branch. -/
theorem maintenance_entries (s : Entities) (hslow : s.slow_entries = []) :
    s.maintenance.entries = (maintGo s.entries s.free s.dropQueue).1 := by
  simp [Entities.maintenance, hslow]

theorem maintenance_slow (s : Entities) : s.maintenance.slow_entries = [] := by
  simp only [Entities.maintenance]
  split <;> rfl

theorem spawn_slow (s : Entities) (loc : Location) :
    (s.spawn_mut loc).1.slow_entries = s.slow_entries := by
  simp only [Entities.spawn_mut]
  cases s.free.getLast? <;> rfl

theorem spawn_genAt (s : Entities) (loc : Location) (i : Nat) :
    genAt (s.spawn_mut loc).1 i = genAt s i := by
  simp only [Entities.spawn_mut]
  cases hfree : s.free.getLast? with
  | some index =>
    simp only [genAt_eq_genAtL]
    rw [genAtL_set]
    by_cases hc : index = i ∧ index < s.entries.length
    · rw [if_pos hc]
      simp only [genAtL]
      rw [hc.1]
    · rw [if_neg hc]
  | none =>
    simp only [genAt_eq_genAtL, genAtL, List.getD_eq_getElem?_getD]
    by_cases hi : i < s.entries.length
    · rw [List.getElem?_append_left hi]
    · by_cases hieq : i = s.entries.length
      · rw [List.getElem?_append_right (by omega)]
        subst hieq
        simp [Entry.with_location, Entry.new]
      · rw [List.getElem?_append_right (by omega)]
        have h1 : i - s.entries.length ≠ 0 := by omega
        have h2 : ([Entry.with_location loc][i - s.entries.length]?) = none := by
          rw [List.getElem?_eq_none]
          simp
          omega
        rw [h2]
        have h3 : (s.entries[i]?) = none := by
          rw [List.getElem?_eq_none]
          omega
        rw [h3]

theorem op_slow (s : Entities) (op : EntOp) (hslow : s.slow_entries = []) :
    (applyOp s op).slow_entries = [] := by
  cases op with
  | spawn loc => rw [applyOp, spawn_slow]; exact hslow
  | drop e => exact hslow
  | maintain => exact maintenance_slow s

theorem op_genAt_mono (s : Entities) (op : EntOp) (hslow : s.slow_entries = [])
    (i : Nat) : genAt s i ≤ genAt (applyOp s op) i := by
  cases op with
  | spawn loc => rw [applyOp, spawn_genAt]
  | drop e => exact Nat.le_refl _
  | maintain =>
    show genAt s i ≤ genAt s.maintenance i
    rw [genAt_eq_genAtL, genAt_eq_genAtL, maintenance_entries s hslow]
    exact maintGo_mono _ _ _ i

theorem get_none_of_gen_lt (t : Entities) (e : Entity)
    (h : e.generation < genAt t e.index) : t.get e = none := by
  simp only [Entities.get]
  cases hx : t.entries[e.index]? with
  | none => rfl
  | some entry =>
    have hgen : genAt t e.index = entry.generation := by
      simp [genAt, genAtL, List.getD_eq_getElem?_getD, hx]
    rw [hgen] at h
    show (if entry.generation = e.generation then some entry.location else none) = none
    rw [if_neg (by omega)]

/-- C6 (counterexample): immediately after `Entities::drop(e)` — before
`maintenance` runs — `Entities::get(e)` still returns `Some`, not `None`:
the drop is only queued. -/
theorem c6_counterexample :
    (((Entities.new 1 1).spawn_mut ⟨0, 0⟩).1.drop
        ((Entities.new 1 1).spawn_mut ⟨0, 0⟩).2).get
      ((Entities.new 1 1).spawn_mut ⟨0, 0⟩).2 = some ⟨0, 0⟩ ∧
    some (⟨0, 0⟩ : Location) ≠ none := by
  constructor
  · rfl
  · simp

/-- C6 (amended): after `Entities::drop(e)` **followed by
`Entities::maintenance`**, the slot's generation strictly exceeds `e`'s, so
`get(e)` returns `None`; any spawn that reuses `e`'s slot returns a handle
with strictly greater generation; and `e` never validates again under any
further sequence of operations. -/
theorem c6_amended (s : Entities) (e : Entity)
    (hslow : s.slow_entries = [])
    (hlen : e.index < s.entries.length)
    (hlive : genAt s e.index = e.generation) :
    ((s.drop e).maintenance.get e = none) ∧
    (e.generation < genAt (s.drop e).maintenance e.index) ∧
    (∀ (t : Entities) (loc : Location),
      e.generation < genAt t e.index →
      (t.spawn_mut loc).2.index = e.index →
      e.generation < (t.spawn_mut loc).2.generation) ∧
    (∀ ops : List EntOp, (applyOps ((s.drop e).maintenance) ops).get e = none) := by
  have hq : e ∈ (s.drop e).dropQueue := by
    simp [Entities.drop]
  have hslow' : (s.drop e).slow_entries = [] := hslow
  have hbump : e.generation < genAt (s.drop e).maintenance e.index := by
    rw [genAt_eq_genAtL, maintenance_entries _ hslow']
    have := maintGo_bump (s.drop e).dropQueue (s.drop e).entries (s.drop e).free e hq
      (by exact hlen)
    have heq : genAtL (s.drop e).entries e.index = e.generation := hlive
    omega
  have hspawn : ∀ (t : Entities) (loc : Location),
      e.generation < genAt t e.index →
      (t.spawn_mut loc).2.index = e.index →
      e.generation < (t.spawn_mut loc).2.generation := by
    intro t loc hgt hidx
    simp only [Entities.spawn_mut] at hidx ⊢
    cases hfree : t.free.getLast? with
    | some index =>
      simp only [hfree] at hidx ⊢
      have hgen : genAtL (t.entries.set index
          { (t.entries.getD index Entry.new) with location := loc }) index =
            genAtL t.entries index := by
        rw [genAtL_set]
        by_cases hc : index < t.entries.length
        · rw [if_pos ⟨rfl, hc⟩]
          simp [genAtL]
        · rw [if_neg (by tauto)]
      show e.generation < genAtL (t.entries.set index
          { (t.entries.getD index Entry.new) with location := loc }) index
      rw [hgen, hidx]
      exact hgt
    | none =>
      simp only [hfree] at hidx ⊢
      have hone : genAt t e.index = 1 := by
        simp only [genAt, genAtL, List.getD_eq_getElem?_getD]
        rw [List.getElem?_eq_none (by omega)]
        rfl
      rw [hone] at hgt
      show e.generation < (Entry.with_location loc).generation
      simp only [Entry.with_location]
      omega
  refine ⟨get_none_of_gen_lt _ _ hbump, hbump, hspawn, ?_⟩
  have hnever : ∀ (ops : List EntOp) (cur : Entities),
      cur.slow_entries = [] → e.generation < genAt cur e.index →
      (applyOps cur ops).get e = none := by
    intro ops
    induction ops with
    | nil =>
      intro cur _ hg
      exact get_none_of_gen_lt _ _ hg
    | cons op rest ih =>
      intro cur hs hg
      exact ih (applyOp cur op) (op_slow cur op hs)
        (Nat.lt_of_lt_of_le hg (op_genAt_mono cur op hs e.index))
  intro ops
  exact hnever ops _ (maintenance_slow _) hbump

def c6WitnessState : Entities :=
  { entries := [⟨1, ⟨0, 0⟩⟩], free := [], slow_entries := [], dropQueue := [] }

theorem c6_amended_witness :
    (c6WitnessState.drop ⟨1, 0⟩).maintenance.get ⟨1, 0⟩ = none :=
  (c6_amended c6WitnessState ⟨1, 0⟩ rfl (by decide) (by decide)).1

/-! ## Archetype storage and the World (src/archetype/mod.rs, src/world.rs)

Chunk memory is modelled as a typed store: an association list from
`(byte address, component id)` to the stored value; a component of byte size
`s` stores its value modulo `2 ^ (8 * s)`.  Positive-size columns of one
archetype occupy disjoint byte ranges, and a zero-size Rust type has a unique
value, so this is observationally faithful to the raw byte memory. -/

def Mem := List ((Nat × Nat) × Nat)
deriving DecidableEq, Repr

def Mem.write (m : Mem) (addr cid v : Nat) : Mem := ((addr, cid), v) :: m

def Mem.read (m : Mem) (addr cid : Nat) : Option Nat := m.lookup (addr, cid)

theorem Mem.read_write_self (m : Mem) (addr cid v : Nat) :
    (m.write addr cid v).read addr cid = some v := by
  simp [Mem.write, Mem.read, List.lookup]

theorem Mem.read_write_ne (m : Mem) (a c v a' c' : Nat)
    (h : (a', c') ≠ (a, c)) : (m.write a c v).read a' c' = m.read a' c' := by
  simp only [Mem.write, Mem.read, List.lookup]
  have hb : ((a', c') == (a, c)) = false := by
    rw [beq_eq_false_iff_ne]
    exact h
  rw [hb]

/-- One chunk: the typed component store plus the back-index column
(row index ↦ entity index). -/
structure Chunk where
  data : Mem
  back : List (Nat × Nat)
deriving DecidableEq, Repr

def Chunk.empty : Chunk := ⟨[], []⟩

/-- `ArchetypeInfo::component_offset`. -/
def ArchetypeInfo.component_offset (info : ArchetypeInfo) (c : Nat) : Option Nat :=
  (info.components.find? (fun cd => cd.info.id == c)).map (·.offset)

/-- `ArchetypeInfo::is`: exact (ordered) component-id equality. -/
def ArchetypeInfo.is (info : ArchetypeInfo) (ids : List Nat) : Bool :=
  decide (info.components.map (·.info.id) = ids)

/-- `ArchetypeInfo::has`. -/
def ArchetypeInfo.has (info : ArchetypeInfo) (c : Nat) : Bool :=
  info.components.any (fun cd => cd.info.id == c)

/-- `ArchetypeInfo::split_entity_index`. -/
def ArchetypeInfo.split_entity_index (info : ArchetypeInfo) (idx : Nat) : Nat × Nat :=
  (idx / info.chunk_capacity, idx % info.chunk_capacity)

/-- `struct Archetype { info, chunks, len }`. -/
structure Archetype where
  info : ArchetypeInfo
  chunks : List Chunk
  len : Nat
deriving DecidableEq, Repr

/-- `Archetype::new` (components must be sorted, as the callers establish). -/
def Archetype.new (cfg : ChunkConfig) (components : List ComponentInfo) :
    Except ArchetypeError Archetype :=
  (ArchetypeInfo.new cfg components).map fun info => ⟨info, [], 0⟩

/-- The `EntityInserter` write loop: write each component of the set into
the chunk at its column offset plus `row_in_chunk * size`, truncated to the
component's byte size. -/
def writeSet (info : ArchetypeInfo) (ei : Nat) :
    List (ComponentInfo × Nat) → Chunk → Chunk
  | [], ch => ch
  | cv :: rest, ch =>
    match info.component_offset cv.1.id with
    | some off =>
      writeSet info ei rest
        { ch with
          data := ch.data.write (off + ei * cv.1.size) cv.1.id (cv.2 % 2 ^ (8 * cv.1.size)) }
    | none => writeSet info ei rest ch

/-- Insert one component set into the archetype at row `len`
(`Archetype::insert`, one iteration of the returned iterator): check the set
matches the archetype, allocate a chunk when all are full, write every
component at its column offset plus `row_in_chunk * size`, write the entity's
back index, and bump `len`.  `none` models the asserts and
`handle_alloc_error`.  Returns the updated archetype and the assigned row. -/
def Archetype.insertOne (a : Archetype) (set : List (ComponentInfo × Nat))
    (entityIndex : Nat) : Option (Archetype × Nat) :=
  if set.length ≠ a.info.components.length then none
  else if set.any (fun cv => (a.info.component_offset cv.1.id).isNone) then none
  else if a.len + 1 ≥ 2 ^ 32 then none
  else
    let cap := a.info.chunk_capacity
    let chunks := if a.len = a.chunks.length * cap then a.chunks ++ [Chunk.empty]
      else a.chunks
    let ci := a.len / cap
    let ei := a.len % cap
    match chunks[ci]? with
    | none => none
    | some chunk =>
      let written := writeSet a.info ei set chunk
      let written := { written with back := (ei, entityIndex) :: written.back }
      some ({ a with chunks := chunks.set ci written, len := a.len + 1 }, a.len)

/-- Stable sort of component infos by id (`components.sort()`, whose `Ord`
compares only the `TypeId`). -/
def infoLe (a b : ComponentInfo) : Prop := a.id ≤ b.id

instance : DecidableRel infoLe := fun a b => by unfold infoLe; infer_instance

instance : IsTotal ComponentInfo infoLe where
  total a b := Nat.le_total a.id b.id

instance : IsTrans ComponentInfo infoLe where
  trans _ _ _ hab hbc := Nat.le_trans hab hbc

def sortInfos (l : List ComponentInfo) : List ComponentInfo :=
  l.insertionSort infoLe

/-- `struct Archetypes { array, set_to_archetype }`; the map key is the
`TypeId` of the component-set type, modelled as a `Nat`. -/
structure Archetypes where
  array : List Archetype
  set_to_archetype : List (Nat × Nat)
deriving DecidableEq, Repr

/-- `Archetypes::archetype_for_set`: a map hit returns the cached index; on a
miss, search the array for an archetype with exactly the sorted component-id
list (without caching on success!), and only create — and cache — a new
archetype when none matches. -/
def Archetypes.archetype_for_set (cfg : ChunkConfig) (s : Archetypes) (key : Nat)
    (components : List ComponentInfo) : Option (Archetypes × Nat) :=
  match s.set_to_archetype.lookup key with
  | some idx => some (s, idx)
  | none =>
    let sorted := sortInfos components
    match s.array.findIdx? (fun a => a.info.is (sorted.map (·.id))) with
    | some i => some (s, i)
    | none =>
      if s.array.length ≥ 2 ^ 32 then none
      else
        match Archetype.new cfg sorted with
        | .error _ => none
        | .ok arch =>
          some ({ array := s.array ++ [arch],
                  set_to_archetype := s.set_to_archetype ++ [(key, s.array.length)] },
                s.array.length)

/-- `struct World { entities, archetypes }`. -/
structure World where
  entities : Entities
  archetypes : Archetypes
deriving DecidableEq, Repr

/-- `World::new`: an entity directory with 1024 pre-allocated free slots and
one pre-created archetype for the empty component set. -/
def World.new (cfg : ChunkConfig) : Option World :=
  match Archetype.new cfg [] with
  | .error _ => none
  | .ok empty =>
    some { entities := Entities.new 1024 1024
           archetypes := { array := [empty], set_to_archetype := [] } }

/-- `World::insert` for a single component set (one iteration of the
returned iterator): pick or create the archetype for the set type, spawn the
entity with `Location { archetype, entity := row }`, and write the set into
the archetype at that row. -/
def World.insertOne (cfg : ChunkConfig) (w : World) (key : Nat)
    (set : List (ComponentInfo × Nat)) : Option (World × Entity) :=
  match w.archetypes.archetype_for_set cfg key (set.map (·.1)) with
  | none => none
  | some (archs, k) =>
    match archs.array[k]? with
    | none => none
    | some a =>
      let row := a.len
      let se := w.entities.spawn_mut ⟨k, row⟩
      match a.insertOne set se.2.index with
      | none => none
      | some (a', _) =>
        some ({ entities := se.1,
                archetypes := { archs with array := archs.array.set k a' } }, se.2)

/-- `World::get_component::<T>`: resolve the handle to a location, look up
the component offset in the archetype (returning `None` when the archetype
lacks `T`), then walk the per-chunk column iterator to the row's chunk and
slot. -/
def World.get_component (w : World) (t : ComponentInfo) (e : Entity) : Option Nat :=
  match w.entities.get e with
  | none => none
  | some loc =>
    match w.archetypes.array[loc.archetype]? with
    | none => none
    | some a =>
      match a.info.component_offset t.id with
      | none => none
      | some off =>
        let cap := a.info.chunk_capacity
        let s := a.info.split_entity_index loc.entity
        match a.chunks[s.1]? with
        | none => none
        | some chunk =>
          if s.1 * cap < a.len ∧ s.2 < min (a.len - s.1 * cap) cap then
            chunk.data.read (off + s.2 * t.size) t.id
          else none

/-! ### Storage invariants and the behaviour of one insertion -/

/-- Chunk accounting: `chunks.len()` is exactly `ceil(len / capacity)`. -/
def ChunkAcct (a : Archetype) : Prop :=
  a.len ≤ a.chunks.length * a.info.chunk_capacity ∧
  a.chunks.length * a.info.chunk_capacity ≤ a.len + a.info.chunk_capacity

/-- Row `r` of archetype `a` holds value `v` (truncated to the component's
byte size) for component `c`, at the address the column layout assigns. -/
def ReadOK (a : Archetype) (r : Nat) (c : ComponentInfo) (v : Nat) : Prop :=
  ∃ off chunk, a.info.component_offset c.id = some off ∧
    a.chunks[r / a.info.chunk_capacity]? = some chunk ∧
    chunk.data.read (off + (r % a.info.chunk_capacity) * c.size) c.id =
      some (v % 2 ^ (8 * c.size))

theorem writeSet_read_frame (info : ArchetypeInfo) (ei : Nat) :
    ∀ (set : List (ComponentInfo × Nat)) (ch : Chunk) (addr cid : Nat),
      (∀ cv ∈ set, ∀ off, info.component_offset cv.1.id = some off →
        ¬(cv.1.id = cid ∧ addr = off + ei * cv.1.size)) →
      (writeSet info ei set ch).data.read addr cid = ch.data.read addr cid := by
  intro set
  induction set with
  | nil => intro ch addr cid _; rfl
  | cons hd tl ih =>
    intro ch addr cid hno
    cases hoff : info.component_offset hd.1.id with
    | none =>
      show (writeSet info ei (hd :: tl) ch).data.read addr cid = _
      rw [writeSet, hoff]
      exact ih ch addr cid (fun cv hcv => hno cv (List.mem_cons_of_mem _ hcv))
    | some off =>
      show (writeSet info ei (hd :: tl) ch).data.read addr cid = _
      rw [writeSet, hoff]
      rw [ih _ addr cid (fun cv hcv => hno cv (List.mem_cons_of_mem _ hcv))]
      exact Mem.read_write_ne _ _ _ _ _ _ (by
        have := hno hd (List.mem_cons_self _ _) off hoff
        intro hk
        obtain ⟨h1, h2⟩ := Prod.mk.injEq _ _ _ _ ▸ hk
        exact this ⟨h2.symm, h1⟩)

theorem writeSet_read_hit (info : ArchetypeInfo) (ei : Nat) :
    ∀ (set : List (ComponentInfo × Nat)) (ch : Chunk) (cv : ComponentInfo × Nat)
      (off : Nat), cv ∈ set → (set.map (·.1.id)).Nodup →
      info.component_offset cv.1.id = some off →
      (writeSet info ei set ch).data.read (off + ei * cv.1.size) cv.1.id =
        some (cv.2 % 2 ^ (8 * cv.1.size)) := by
  intro set
  induction set with
  | nil => intro _ _ _ h; simp at h
  | cons hd tl ih =>
    intro ch cv off hmem hnd hoff
    rcases List.mem_cons.mp hmem with rfl | hmem'
    · show (writeSet info ei (cv :: tl) ch).data.read _ _ = _
      rw [writeSet, hoff]
      have hne : ∀ cv' ∈ tl, cv'.1.id ≠ cv.1.id := by
        intro cv' hcv' heq
        have : cv.1.id ∈ tl.map (·.1.id) := by
          rw [← heq]
          exact List.mem_map_of_mem _ hcv'
        exact (List.nodup_cons.mp hnd).1 this
      rw [writeSet_read_frame info ei tl _ _ _
        (fun cv' hcv' off' _ hk => hne cv' hcv' hk.1)]
      exact Mem.read_write_self _ _ _ _
    · show (writeSet info ei (hd :: tl) ch).data.read _ _ = _
      rw [writeSet]
      cases hoff2 : info.component_offset hd.1.id with
      | none => exact ih _ cv off hmem' (List.nodup_cons.mp hnd).2 hoff
      | some off2 => exact ih _ cv off hmem' (List.nodup_cons.mp hnd).2 hoff

/-- Behaviour of one successful `Archetype::insert` step: the row is the old
`len`, the info is unchanged, the chunk accounting is maintained, the new row
reads back every written component, and every older row's contents are
untouched (for a zero-sized component the overwrite stores the same truncated
value). -/
theorem Archetype.insertOne_spec (a : Archetype) (set : List (ComponentInfo × Nat))
    (eidx : Nat) (a' : Archetype) (row : Nat)
    (hcap : 1 ≤ a.info.chunk_capacity)
    (hacct : ChunkAcct a)
    (h : a.insertOne set eidx = some (a', row)) :
    row = a.len ∧ a'.info = a.info ∧ a'.len = a.len + 1 ∧ ChunkAcct a' ∧
    ((set.map (·.1.id)).Nodup → ∀ cv ∈ set, ReadOK a' a.len cv.1 cv.2) ∧
    (∀ (c : ComponentInfo) (r' v : Nat), r' < a.len →
      (set.map (·.1.id)).Nodup →
      (∀ cv ∈ set, cv.1.id = c.id → cv.1 = c) →
      ReadOK a r' c v → ReadOK a' r' c v) := by
  obtain ⟨hacct1, hacct2⟩ := hacct
  simp only [Archetype.insertOne] at h
  by_cases hlen : set.length ≠ a.info.components.length
  · rw [if_pos hlen] at h
    exact absurd h (by simp)
  · rw [if_neg hlen] at h
    by_cases hany : (set.any fun cv => (a.info.component_offset cv.1.id).isNone) = true
    · rw [if_pos hany] at h
      exact absurd h (by simp)
    · rw [if_neg hany] at h
      by_cases hovf : a.len + 1 ≥ 2 ^ 32
      · rw [if_pos hovf] at h
        exact absurd h (by simp)
      · rw [if_neg hovf] at h
        have hall : ∀ cv ∈ set, ∃ off, a.info.component_offset cv.1.id = some off := by
          intro cv hcv
          cases hc : a.info.component_offset cv.1.id with
          | some off => exact ⟨off, rfl⟩
          | none =>
            exfalso
            apply hany
            rw [List.any_eq_true]
            refine ⟨cv, hcv, ?_⟩
            rw [hc]
            rfl
        by_cases halloc : a.len = a.chunks.length * a.info.chunk_capacity
        · -- a fresh chunk is appended
          rw [if_pos halloc] at h
          have hcieq : a.len / a.info.chunk_capacity = a.chunks.length := by
            rw [halloc]
            exact Nat.mul_div_cancel _ (by omega)
          have hget : (a.chunks ++ [Chunk.empty])[a.len / a.info.chunk_capacity]? =
              some Chunk.empty := by
            rw [hcieq, List.getElem?_append_right (Nat.le_refl _)]
            simp
          rw [hget] at h
          have hp := Option.some.inj h
          rw [Prod.mk.injEq] at hp
          obtain ⟨ha', hrow⟩ := hp
          subst ha'
          subst hrow
          refine ⟨rfl, rfl, rfl, ?_, ?_, ?_⟩
          · -- accounting
            constructor
            · show a.len + 1 ≤ ((a.chunks ++ [Chunk.empty]).set _ _).length *
                a.info.chunk_capacity
              simp only [List.length_set, List.length_append, List.length_singleton]
              have he : (a.chunks.length + 1) * a.info.chunk_capacity =
                  a.chunks.length * a.info.chunk_capacity + a.info.chunk_capacity := by
                ring
              omega
            · show ((a.chunks ++ [Chunk.empty]).set _ _).length *
                a.info.chunk_capacity ≤ a.len + 1 + a.info.chunk_capacity
              simp only [List.length_set, List.length_append, List.length_singleton]
              have he : (a.chunks.length + 1) * a.info.chunk_capacity =
                  a.chunks.length * a.info.chunk_capacity + a.info.chunk_capacity := by
                ring
              omega
          · -- the new row reads back
            intro hnd cv hcv
            obtain ⟨off, hoff⟩ := hall cv hcv
            refine ⟨off, ?c, hoff, ?g1, ?g2⟩
            case g1 =>
              show ((a.chunks ++ [Chunk.empty]).set (a.len / a.info.chunk_capacity) _)[
                a.len / a.info.chunk_capacity]? = some _
              exact List.getElem?_set_self (by
                show a.len / a.info.chunk_capacity < (a.chunks ++ [Chunk.empty]).length
                simp only [List.length_append, List.length_singleton]
                omega)
            case g2 =>
              show (writeSet a.info (a.len % a.info.chunk_capacity) set Chunk.empty).data.read
                _ _ = _
              exact writeSet_read_hit a.info _ set Chunk.empty cv off hcv hnd hoff
          · -- old rows preserved: their chunk is untouched
            intro c r' v hr' _ _ hread
            obtain ⟨off, chunkOld, hoff, hchunkOld, hreadOld⟩ := hread
            have hci' : r' / a.info.chunk_capacity < a.chunks.length := by
              rw [Nat.div_lt_iff_lt_mul (by omega)]
              omega
            refine ⟨off, chunkOld, hoff, ?_, hreadOld⟩
            show ((a.chunks ++ [Chunk.empty]).set (a.len / a.info.chunk_capacity) _)[
              r' / a.info.chunk_capacity]? = some chunkOld
            rw [List.getElem?_set_ne (by omega)]
            rw [List.getElem?_append_left hci']
            exact hchunkOld
        · -- no allocation: chunks has room
          rw [if_neg halloc] at h
          have hlt : a.len < a.chunks.length * a.info.chunk_capacity := by
            omega
          have hci : a.len / a.info.chunk_capacity < a.chunks.length := by
            rw [Nat.div_lt_iff_lt_mul (by omega)]
            omega
          cases hchunk : a.chunks[a.len / a.info.chunk_capacity]? with
          | none =>
            rw [hchunk] at h
            exact absurd h (by simp)
          | some chunk =>
            rw [hchunk] at h
            have hp := Option.some.inj h
            rw [Prod.mk.injEq] at hp
            obtain ⟨ha', hrow⟩ := hp
            subst ha'
            subst hrow
            refine ⟨rfl, rfl, rfl, ?_, ?_, ?_⟩
            · constructor
              · show a.len + 1 ≤ (a.chunks.set _ _).length * a.info.chunk_capacity
                simp only [List.length_set]
                omega
              · show (a.chunks.set _ _).length * a.info.chunk_capacity ≤
                  a.len + 1 + a.info.chunk_capacity
                simp only [List.length_set]
                omega
            · intro hnd cv hcv
              obtain ⟨off, hoff⟩ := hall cv hcv
              refine ⟨off, ?c2, hoff, ?g3, ?g4⟩
              case g3 =>
                show (a.chunks.set (a.len / a.info.chunk_capacity) _)[
                  a.len / a.info.chunk_capacity]? = some _
                exact List.getElem?_set_self (by
                  show a.len / a.info.chunk_capacity < a.chunks.length
                  omega)
              case g4 =>
                show (writeSet a.info (a.len % a.info.chunk_capacity) set chunk).data.read
                  _ _ = _
                exact writeSet_read_hit a.info _ set chunk cv off hcv hnd hoff
            · intro c r' v hr' hnd hco hread
              obtain ⟨off, chunkOld, hoff, hchunkOld, hreadOld⟩ := hread
              have hci' : r' / a.info.chunk_capacity < a.chunks.length := by
                rw [Nat.div_lt_iff_lt_mul (by omega)]
                omega
              by_cases hsame : r' / a.info.chunk_capacity = a.len / a.info.chunk_capacity
              · -- same chunk: the new writes miss the old row's cells, except
                -- zero-sized columns where the stored value is identical
                have hchunkeq : chunkOld = chunk := by
                  rw [hsame] at hchunkOld
                  rw [hchunkOld] at hchunk
                  exact Option.some.inj hchunk
                subst hchunkeq
                have hne_mod : r' % a.info.chunk_capacity ≠
                    a.len % a.info.chunk_capacity := by
                  intro heq
                  have h1 := Nat.div_add_mod r' a.info.chunk_capacity
                  have h2 := Nat.div_add_mod a.len a.info.chunk_capacity
                  have : r' = a.len := by
                    rw [← h1, ← h2, hsame, heq]
                  omega
                refine ⟨off, ?c3, hoff, ?g5, ?g6⟩
                case g5 =>
                  show (a.chunks.set (a.len / a.info.chunk_capacity) _)[
                    r' / a.info.chunk_capacity]? = some _
                  rw [hsame]
                  exact List.getElem?_set_self (by
                    show a.len / a.info.chunk_capacity < a.chunks.length
                    omega)
                case g6 =>
                  show (writeSet a.info (a.len % a.info.chunk_capacity) set chunkOld).data.read
                    (off + (r' % a.info.chunk_capacity) * c.size) c.id = _
                  by_cases hex : ∃ cv ∈ set, cv.1.id = c.id
                  · obtain ⟨cv, hcvmem, hcvid⟩ := hex
                    have hcveq : cv.1 = c := hco cv hcvmem hcvid
                    by_cases hz : c.size = 0
                    · -- zero-sized column: the fresh write stores the same value
                      have hoffcv : a.info.component_offset cv.1.id = some off := by
                        rw [hcvid]
                        exact hoff
                      have hhit := writeSet_read_hit a.info (a.len % a.info.chunk_capacity)
                        set chunkOld cv off hcvmem hnd hoffcv
                      have hz' : cv.1.size = 0 := by rw [hcveq]; exact hz
                      rw [hz'] at hhit
                      simp only [Nat.mul_zero, Nat.add_zero, Nat.pow_zero,
                        Nat.mod_one] at hhit
                      rw [hcvid] at hhit
                      simp only [hz, Nat.mul_zero, Nat.add_zero, Nat.pow_zero,
                        Nat.mod_one]
                      exact hhit
                    · -- positive size: addresses of distinct rows differ
                      rw [writeSet_read_frame]
                      · exact hreadOld
                      · intro cv' hcv' off' hoff' hk
                        obtain ⟨hk1, hk2⟩ := hk
                        have hcv'eq : cv'.1 = c := hco cv' hcv' hk1
                        have hoff'eq : off' = off := by
                          rw [hcv'eq] at hoff'
                          rw [hoff'] at hoff
                          exact (Option.some.inj hoff)
                        rw [hoff'eq, hcv'eq] at hk2
                        have := Nat.mod_lt a.len (show 0 < a.info.chunk_capacity by omega)
                        have hzpos : 0 < c.size := Nat.pos_of_ne_zero hz
                        have : (r' % a.info.chunk_capacity) * c.size ≠
                            (a.len % a.info.chunk_capacity) * c.size := by
                          intro heq
                          exact hne_mod (Nat.eq_of_mul_eq_mul_right hzpos heq)
                        omega
                  · rw [writeSet_read_frame]
                    · exact hreadOld
                    · intro cv' hcv' off' _ hk
                      exact hex ⟨cv', hcv', hk.1⟩
              · -- different chunk: untouched
                refine ⟨off, chunkOld, hoff, ?_, hreadOld⟩
                show (a.chunks.set (a.len / a.info.chunk_capacity) _)[
                  r' / a.info.chunk_capacity]? = some chunkOld
                rw [List.getElem?_set_ne (fun hcontra => hsame hcontra.symm)]
                exact hchunkOld

/-- One insert trace: `(set-type key, component values)` per spawned entity. -/
def runTrace (cfg : ChunkConfig) (w : World) :
    List (Nat × List (ComponentInfo × Nat)) → Option (World × List Entity)
  | [] => some (w, [])
  | (key, set) :: rest =>
    match World.insertOne cfg w key set with
    | none => none
    | some (w', e) =>
      match runTrace cfg w' rest with
      | none => none
      | some (w'', es) => some (w'', e :: es)

/-! ### The round-trip invariant (C1) -/

/-- A well-formed inserted set: distinct component ids and values that fit
their component's byte size. -/
def SetWF (set : List (ComponentInfo × Nat)) : Prop :=
  (set.map (·.1.id)).Nodup ∧ ∀ cv ∈ set, cv.2 < 2 ^ (8 * cv.1.size)

/-- Directory well-formedness: the free list is duplicate-free and in
bounds. -/
def EntitiesWF (s : Entities) : Prop :=
  s.free.Nodup ∧ ∀ i ∈ s.free, i < s.entries.length

/-- Per-archetype well-formedness: positive capacity, consistent chunk
accounting, and duplicate-free column ids. -/
def ArchWF (a : Archetype) : Prop :=
  1 ≤ a.info.chunk_capacity ∧ ChunkAcct a ∧
  (a.info.components.map (·.info.id)).Nodup

/-- A spawned entity together with its inserted set: the handle resolves to a
live row of its archetype, every component of the set reads back, and the
archetype has no column beyond the set's components. -/
def PairOK (w : World) (p : Entity × List (ComponentInfo × Nat)) : Prop :=
  p.1.index ∉ w.entities.free ∧
  ∃ loc a, w.entities.get p.1 = some loc ∧
    w.archetypes.array[loc.archetype]? = some a ∧
    loc.entity < a.len ∧
    (∀ cv ∈ p.2, ReadOK a loc.entity cv.1 cv.2) ∧
    (∀ cd ∈ a.info.components, cd.info.id ∈ p.2.map (·.1.id))

/-- The whole-world invariant, relative to the global id ↦ info assignment
`env` (a Rust `TypeId` determines the component's layout). -/
def WorldInv (env : Nat → ComponentInfo) (w : World)
    (live : List (Entity × List (ComponentInfo × Nat))) : Prop :=
  EntitiesWF w.entities ∧
  (∀ a ∈ w.archetypes.array, ArchWF a) ∧
  ∀ p ∈ live, PairOK w p ∧ SetWF p.2 ∧ ∀ cv ∈ p.2, cv.1 = env cv.1.id

theorem getElem?_some_lt {α : Type} (l : List α) (i : Nat) (x : α)
    (h : l[i]? = some x) : i < l.length := by
  by_contra hge
  rw [List.getElem?_eq_none (Nat.le_of_not_lt hge)] at h
  exact absurd h (by simp)

theorem Entities.get_some_index_lt (s : Entities) (e : Entity) (loc : Location)
    (h : s.get e = some loc) : e.index < s.entries.length := by
  simp only [Entities.get] at h
  cases hx : s.entries[e.index]? with
  | none => rw [hx] at h; exact absurd h (by simp)
  | some entry => exact getElem?_some_lt _ _ _ hx

theorem Entities.get_set_gen (entries : List Entry) (free : List Nat)
    (slow : List Entry) (dq : List Entity) (index : Nat) (E : Entry)
    (hlt : index < entries.length) :
    Entities.get ⟨entries.set index E, free, slow, dq⟩
      ⟨((entries.set index E).getD index Entry.new).generation, index⟩ =
      some E.location := by
  have hset : (entries.set index E)[index]? = some E := List.getElem?_set_self hlt
  have hgen : ((entries.set index E).getD index Entry.new).generation =
      E.generation := by
    rw [List.getD_eq_getElem?_getD, hset]
    rfl
  simp only [Entities.get, hset, hgen]
  simp

/-- What one `spawn_mut` does to a well-formed directory: the new handle
resolves to the requested location and sits outside the free list, and every
slot outside the free list is untouched. -/
theorem Entities.spawn_mut_spec (s : Entities) (loc : Location)
    (hwf : EntitiesWF s) :
    EntitiesWF (s.spawn_mut loc).1 ∧
    (s.spawn_mut loc).1.get (s.spawn_mut loc).2 = some loc ∧
    (s.spawn_mut loc).2.index ∉ (s.spawn_mut loc).1.free ∧
    ∀ e : Entity, e.index ∉ s.free → e.index < s.entries.length →
      ((s.spawn_mut loc).1.get e = s.get e ∧ e.index ∉ (s.spawn_mut loc).1.free) := by
  obtain ⟨hnd, hbound⟩ := hwf
  cases hlast : s.free.getLast? with
  | none =>
    have hfree_nil : s.free = [] := List.getLast?_eq_none_iff.mp hlast
    simp only [Entities.spawn_mut, hlast]
    refine ⟨⟨hnd, ?_⟩, ?_, ?_, ?_⟩
    · intro i hi
      have := hbound i hi
      simp only [List.length_append, List.length_singleton]
      omega
    · show Entities.get _ _ = some loc
      simp only [Entities.get]
      have hidx : (s.entries ++ [Entry.with_location loc])[s.entries.length]? =
          some (Entry.with_location loc) := by
        rw [List.getElem?_append_right (Nat.le_refl _)]
        simp
      rw [hidx]
      rfl
    · rw [hfree_nil]
      exact List.not_mem_nil _
    · intro e _ hlt
      refine ⟨?_, by rw [hfree_nil]; exact List.not_mem_nil _⟩
      show Entities.get _ _ = Entities.get _ _
      simp only [Entities.get]
      rw [List.getElem?_append_left hlt]
  | some index =>
    have hne : s.free ≠ [] := by
      intro hnil
      rw [hnil] at hlast
      exact absurd hlast (by simp)
    have hdecomp : s.free.dropLast ++ [index] = s.free := by
      have h1 := List.dropLast_append_getLast hne
      have h2 := List.getLast?_eq_getLast s.free hne
      rw [hlast] at h2
      rw [← Option.some.inj h2] at h1
      exact h1
    have hmemfree : index ∈ s.free := by
      rw [← hdecomp]
      exact List.mem_append_right _ (List.mem_singleton.mpr rfl)
    have hidx_lt : index < s.entries.length := hbound index hmemfree
    have hnotdrop : index ∉ s.free.dropLast := by
      intro hmem
      rw [← hdecomp] at hnd
      obtain ⟨_, _, hdisj⟩ := List.nodup_append.mp hnd
      exact hdisj hmem (List.mem_singleton.mpr rfl)
    have hdropsub : ∀ i ∈ s.free.dropLast, i ∈ s.free :=
      fun i hi => (List.dropLast_sublist s.free).subset hi
    simp only [Entities.spawn_mut, hlast]
    refine ⟨⟨(List.dropLast_sublist s.free).nodup hnd, ?_⟩, ?_, ?_, ?_⟩
    · intro i hi
      have := hbound i (hdropsub i hi)
      simpa using this
    · exact Entities.get_set_gen s.entries s.free.dropLast s.slow_entries s.dropQueue
        index { s.entries.getD index Entry.new with location := loc } hidx_lt
    · exact hnotdrop
    · intro e hfree hlt
      have hneq : index ≠ e.index := fun hEq => hfree (hEq ▸ hmemfree)
      refine ⟨?_, fun hmem => hfree (hdropsub _ hmem)⟩
      show Entities.get _ _ = Entities.get _ _
      simp only [Entities.get]
      rw [List.getElem?_set_ne hneq]

/-- The checks a successful `Archetype::insert` has passed: the set matches
the archetype's column count and every component id has a column. -/
theorem Archetype.insertOne_checks (a : Archetype) (set : List (ComponentInfo × Nat))
    (eidx : Nat) (r : Archetype × Nat) (h : a.insertOne set eidx = some r) :
    set.length = a.info.components.length ∧
    ∀ cv ∈ set, cv.1.id ∈ a.info.components.map (·.info.id) := by
  simp only [Archetype.insertOne] at h
  by_cases hlen : set.length ≠ a.info.components.length
  · rw [if_pos hlen] at h
    exact absurd h (by simp)
  · rw [if_neg hlen] at h
    by_cases hany : (set.any fun cv => (a.info.component_offset cv.1.id).isNone) = true
    · rw [if_pos hany] at h
      exact absurd h (by simp)
    · refine ⟨not_ne_iff.mp hlen, ?_⟩
      intro cv hcv
      cases hoff : a.info.component_offset cv.1.id with
      | none =>
        exfalso
        apply hany
        rw [List.any_eq_true]
        refine ⟨cv, hcv, ?_⟩
        rw [hoff]
        rfl
      | some off =>
        simp only [ArchetypeInfo.component_offset] at hoff
        cases hfind : a.info.components.find? (fun cd => cd.info.id == cv.1.id) with
        | none => rw [hfind] at hoff; exact absurd hoff (by simp)
        | some cd =>
          have hmem := List.mem_of_find?_eq_some hfind
          have hid : cd.info.id = cv.1.id := by simpa using List.find?_some hfind
          rw [← hid]
          exact List.mem_map_of_mem _ hmem

/-- A duplicate-free set whose ids all occur among the duplicate-free column
ids, with matching counts, covers every column id. -/
theorem ids_cover (set : List (ComponentInfo × Nat)) (comps : List ComponentData)
    (hlen : set.length = comps.length)
    (hsub : ∀ cv ∈ set, cv.1.id ∈ comps.map (·.info.id))
    (hnd : (set.map (·.1.id)).Nodup) :
    ∀ cd ∈ comps, cd.info.id ∈ set.map (·.1.id) := by
  have hsub' : set.map (·.1.id) ⊆ comps.map (·.info.id) := by
    intro x hx
    obtain ⟨cv, hcv, rfl⟩ := List.mem_map.mp hx
    exact hsub cv hcv
  have hperm : (set.map (·.1.id)).Perm (comps.map (·.info.id)) :=
    (hnd.subperm hsub').perm_of_length_le (by simp [hlen])
  intro cd hcd
  exact hperm.mem_iff.mpr (List.mem_map_of_mem _ hcd)

/-- What `archetype_for_set` can do to the archetype array: leave it alone
(map or array hit), or append one freshly created archetype for the sorted
component list. -/
theorem Archetypes.archetype_for_set_spec (cfg : ChunkConfig) (s : Archetypes)
    (key : Nat) (components : List ComponentInfo) (archs : Archetypes) (k : Nat)
    (h : Archetypes.archetype_for_set cfg s key components = some (archs, k)) :
    archs.array = s.array ∨
    ∃ arch, Archetype.new cfg (sortInfos components) = .ok arch ∧
      archs.array = s.array ++ [arch] := by
  simp only [Archetypes.archetype_for_set] at h
  cases hl : s.set_to_archetype.lookup key with
  | some idx =>
    rw [hl] at h
    have hp := Option.some.inj h
    rw [Prod.mk.injEq] at hp
    obtain ⟨rfl, rfl⟩ := hp
    exact Or.inl rfl
  | none =>
    rw [hl] at h
    cases hf : s.array.findIdx?
        (fun a => a.info.is ((sortInfos components).map (·.id))) with
    | some i =>
      rw [hf] at h
      have hp := Option.some.inj h
      rw [Prod.mk.injEq] at hp
      obtain ⟨rfl, rfl⟩ := hp
      exact Or.inl rfl
    | none =>
      rw [hf] at h
      by_cases hbig : s.array.length ≥ 2 ^ 32
      · rw [if_pos hbig] at h
        exact absurd h (by simp)
      · rw [if_neg hbig] at h
        cases hnew : Archetype.new cfg (sortInfos components) with
        | error err => rw [hnew] at h; exact absurd h (by simp)
        | ok arch =>
          rw [hnew] at h
          have hp := Option.some.inj h
          rw [Prod.mk.injEq] at hp
          obtain ⟨rfl, rfl⟩ := hp
          exact Or.inr ⟨arch, rfl, rfl⟩

/-- A freshly created archetype for a duplicate-free set is well formed. -/
theorem ArchWF_new (cfg : ChunkConfig) (set : List (ComponentInfo × Nat))
    (arch : Archetype)
    (hok : Archetype.new cfg (sortInfos (set.map (·.1))) = .ok arch)
    (hnd : (set.map (·.1.id)).Nodup) : ArchWF arch := by
  simp only [Archetype.new] at hok
  cases hi : ArchetypeInfo.new cfg (sortInfos (set.map (·.1))) with
  | error err => rw [hi] at hok; exact absurd hok (by simp [Except.map])
  | ok info =>
    rw [hi] at hok
    simp only [Except.map] at hok
    obtain rfl := Except.ok.inj hok
    obtain ⟨hcap, hcomps⟩ := ArchetypeInfo.new_ok_inv cfg _ info hi
    refine ⟨hcap, ⟨by simp, by simp⟩, ?_⟩
    show (info.components.map (·.info.id)).Nodup
    have hmm : info.components.map (·.info.id) =
        (info.components.map (·.info)).map (·.id) := by
      rw [List.map_map]
      rfl
    rw [hmm, hcomps, computeOffsets_map_info]
    have hperm : ((sortInfos (set.map (·.1))).map (·.id)).Perm
        ((set.map (·.1)).map (·.id)) :=
      (List.perm_insertionSort _ _).map _
    have heq : (set.map (·.1)).map (·.id) = set.map (·.1.id) := by
      rw [List.map_map]
      rfl
    rw [heq] at hperm
    exact hperm.nodup_iff.mpr hnd

/-- One successful `World::insert` iteration preserves the world invariant
and adds the new (entity, set) pair to the live list. -/
theorem World.insertOne_preserves (cfg : ChunkConfig) (env : Nat → ComponentInfo)
    (w : World) (key : Nat) (set : List (ComponentInfo × Nat))
    (live : List (Entity × List (ComponentInfo × Nat))) (w' : World) (e : Entity)
    (hinv : WorldInv env w live) (hset : SetWF set)
    (henv : ∀ cv ∈ set, cv.1 = env cv.1.id)
    (h : World.insertOne cfg w key set = some (w', e)) :
    WorldInv env w' ((e, set) :: live) := by
  obtain ⟨hent, harch, hlive⟩ := hinv
  simp only [World.insertOne] at h
  cases hfor : w.archetypes.archetype_for_set cfg key (set.map (·.1)) with
  | none => rw [hfor] at h; exact absurd h (by simp)
  | some rk =>
    obtain ⟨archs, k⟩ := rk
    simp only [hfor] at h
    cases hak : archs.array[k]? with
    | none => rw [hak] at h; exact absurd h (by simp)
    | some a =>
      simp only [hak] at h
      cases hins : a.insertOne set (w.entities.spawn_mut ⟨k, a.len⟩).2.index with
      | none => rw [hins] at h; exact absurd h (by simp)
      | some ar =>
        obtain ⟨a', row⟩ := ar
        simp only [hins] at h
        have hp := Option.some.inj h
        rw [Prod.mk.injEq] at hp
        obtain ⟨hw', he⟩ := hp
        subst hw'
        subst he
        have hkd : k < archs.array.length := getElem?_some_lt _ _ _ hak
        have hamem : a ∈ archs.array := List.getElem?_mem hak
        have hcase := Archetypes.archetype_for_set_spec cfg w.archetypes key
          (set.map (·.1)) archs k hfor
        have harchs : ∀ x ∈ archs.array, ArchWF x := by
          rcases hcase with harr | ⟨arch, hok, harr⟩
          · intro x hx
            rw [harr] at hx
            exact harch x hx
          · intro x hx
            rw [harr] at hx
            rcases List.mem_append.mp hx with hx | hx
            · exact harch x hx
            · rw [List.mem_singleton] at hx
              subst hx
              exact ArchWF_new cfg set x hok hset.1
        have hold_get : ∀ (j : Nat) (x : Archetype), w.archetypes.array[j]? = some x →
            archs.array[j]? = some x := by
          rcases hcase with harr | ⟨arch, _, harr⟩
          · intro j x hx
            rw [harr]
            exact hx
          · intro j x hx
            rw [harr, List.getElem?_append_left (getElem?_some_lt _ _ _ hx)]
            exact hx
        obtain ⟨hcap, hacct, hndids⟩ := harchs a hamem
        obtain ⟨hrow, hinfo, hlen', hacct', hreadback, hpres⟩ :=
          Archetype.insertOne_spec a set _ a' row hcap hacct hins
        have checks := Archetype.insertOne_checks a set _ (a', row) hins
        have hcover := ids_cover set a.info.components checks.1 checks.2 hset.1
        obtain ⟨hent', hgetnew, hnotfree, hpres_dir⟩ :=
          Entities.spawn_mut_spec w.entities ⟨k, a.len⟩ hent
        refine ⟨hent', ?_, ?_⟩
        · intro x hx
          rcases List.mem_or_eq_of_mem_set hx with hx | rfl
          · exact harchs x hx
          · exact ⟨by rw [hinfo]; exact hcap, hacct', by rw [hinfo]; exact hndids⟩
        · intro p hp
          rcases List.mem_cons.mp hp with rfl | hp
          · refine ⟨⟨hnotfree, ⟨k, a.len⟩, a', hgetnew, ?_, ?_, ?_, ?_⟩, hset, henv⟩
            · show (archs.array.set k a')[k]? = some a'
              exact List.getElem?_set_self hkd
            · show a.len < a'.len
              omega
            · intro cv hcv
              exact hreadback hset.1 cv hcv
            · intro cd hcd
              rw [hinfo] at hcd
              exact hcover cd hcd
          · obtain ⟨⟨hpfree, loc, aOld, hget, haOld, hlt, hread, hcov⟩, hpwf, hpenv⟩ :=
              hlive p hp
            have hlt_idx : p.1.index < w.entities.entries.length :=
              Entities.get_some_index_lt _ _ _ hget
            obtain ⟨hget', hfree'⟩ := hpres_dir p.1 hpfree hlt_idx
            have haOld' : archs.array[loc.archetype]? = some aOld := hold_get _ _ haOld
            refine ⟨⟨hfree', ?_⟩, hpwf, hpenv⟩
            by_cases hk : loc.archetype = k
            · subst hk
              have haa : aOld = a := Option.some.inj (haOld'.symm.trans hak)
              subst haa
              refine ⟨loc, a', ?_, ?_, ?_, ?_, ?_⟩
              · rw [hget']
                exact hget
              · show (archs.array.set loc.archetype a')[loc.archetype]? = some a'
                exact List.getElem?_set_self hkd
              · show loc.entity < a'.len
                omega
              · intro cv hcv
                exact hpres cv.1 loc.entity cv.2 hlt hset.1
                  (fun cw hcw hid => by rw [henv cw hcw, hid, ← hpenv cv hcv])
                  (hread cv hcv)
              · intro cd hcd
                rw [hinfo] at hcd
                exact hcov cd hcd
            · refine ⟨loc, aOld, ?_, ?_, hlt, hread, hcov⟩
              · rw [hget']
                exact hget
              · show (archs.array.set k a')[loc.archetype]? = some aOld
                rw [List.getElem?_set_ne (Ne.symm hk)]
                exact haOld'

theorem WorldInv_of_subset (env : Nat → ComponentInfo) (w : World)
    (l l' : List (Entity × List (ComponentInfo × Nat)))
    (h : WorldInv env w l) (hs : ∀ p ∈ l', p ∈ l) : WorldInv env w l' :=
  ⟨h.1, h.2.1, fun p hp => h.2.2 p (hs p hp)⟩

/-- Running an insert trace from an invariant world yields one entity per
set and preserves the invariant with all the new pairs live. -/
theorem runTrace_inv (cfg : ChunkConfig) (env : Nat → ComponentInfo) :
    ∀ (trace : List (Nat × List (ComponentInfo × Nat))) (w : World)
      (live : List (Entity × List (ComponentInfo × Nat))) (w' : World)
      (es : List Entity),
      WorldInv env w live →
      (∀ p ∈ trace, SetWF p.2 ∧ ∀ cv ∈ p.2, cv.1 = env cv.1.id) →
      runTrace cfg w trace = some (w', es) →
      es.length = trace.length ∧
      WorldInv env w' (es.zip (trace.map (·.2)) ++ live) := by
  intro trace
  induction trace with
  | nil =>
    intro w live w' es hinv _ h
    simp only [runTrace] at h
    have hp := Option.some.inj h
    rw [Prod.mk.injEq] at hp
    obtain ⟨rfl, rfl⟩ := hp
    exact ⟨rfl, by simpa using hinv⟩
  | cons hd rest ih =>
    obtain ⟨key, set⟩ := hd
    intro w live w' es hinv hwf h
    simp only [runTrace] at h
    cases h1 : World.insertOne cfg w key set with
    | none => rw [h1] at h; exact absurd h (by simp)
    | some we =>
      obtain ⟨w1, e⟩ := we
      simp only [h1] at h
      cases h2 : runTrace cfg w1 rest with
      | none => rw [h2] at h; exact absurd h (by simp)
      | some wes =>
        obtain ⟨w2, es'⟩ := wes
        simp only [h2] at h
        have hp := Option.some.inj h
        rw [Prod.mk.injEq] at hp
        obtain ⟨rfl, rfl⟩ := hp
        have hinv1 := World.insertOne_preserves cfg env w key set live w1 e hinv
          (hwf (key, set) (List.mem_cons_self _ _)).1
          (hwf (key, set) (List.mem_cons_self _ _)).2 h1
        obtain ⟨hlen, hinv2⟩ := ih w1 ((e, set) :: live) w2 es' hinv1
          (fun p hp => hwf p (List.mem_cons_of_mem _ hp)) h2
        refine ⟨by simp [hlen], WorldInv_of_subset env w2 _ _ hinv2 ?_⟩
        intro q hq
        simp only [List.map_cons, List.zip_cons_cons, List.cons_append,
          List.mem_cons, List.mem_append] at hq ⊢
        tauto

set_option maxRecDepth 10000 in
/-- The freshly created world satisfies the invariant with no live pairs. -/
theorem World.new_inv (cfg : ChunkConfig) (env : Nat → ComponentInfo) (w0 : World)
    (h : World.new cfg = some w0) : WorldInv env w0 [] := by
  simp only [World.new] at h
  cases hn : Archetype.new cfg [] with
  | error err => rw [hn] at h; exact absurd h (by simp)
  | ok empty =>
    simp only [hn] at h
    obtain rfl := Option.some.inj h
    refine ⟨⟨?_, ?_⟩, ?_, by intro p hp; exact absurd hp (List.not_mem_nil _)⟩
    · show (List.range 1024).Nodup
      exact List.nodup_range 1024
    · show ∀ i ∈ List.range 1024, i < (List.replicate 1024 Entry.new).length
      intro i hi
      simpa using List.mem_range.mp hi
    · intro x hx
      rw [List.mem_singleton] at hx
      subst hx
      simp only [Archetype.new] at hn
      cases hi : ArchetypeInfo.new cfg [] with
      | error err => rw [hi] at hn; exact absurd hn (by simp [Except.map])
      | ok info =>
        rw [hi] at hn
        simp only [Except.map] at hn
        obtain rfl := Except.ok.inj hn
        obtain ⟨hcap, hcomps⟩ := ArchetypeInfo.new_ok_inv cfg [] info hi
        exact ⟨hcap, ⟨by simp, by simp⟩, by
          show (info.components.map (·.info.id)).Nodup
          rw [hcomps]
          exact List.Pairwise.nil⟩

/-- C1: round-trip through `World::insert` and `World::get_component`.  For
any trace of inserted component sets run on a fresh world — with
duplicate-free sets whose values fit their component sizes, and component ids
determining their layout (`env`), as Rust `TypeId`s do — every spawned entity,
paired with its inserted set, reads back `Some` of the inserted value for
each component of the set, and `None` for every component id not in the
set. -/
theorem c1_roundtrip (cfg : ChunkConfig) (env : Nat → ComponentInfo)
    (trace : List (Nat × List (ComponentInfo × Nat))) (w0 w' : World)
    (es : List Entity)
    (hw0 : World.new cfg = some w0)
    (hwf : ∀ p ∈ trace, SetWF p.2 ∧ ∀ cv ∈ p.2, cv.1 = env cv.1.id)
    (hrun : runTrace cfg w0 trace = some (w', es)) :
    es.length = trace.length ∧
    ∀ p ∈ es.zip (trace.map (·.2)),
      (∀ cv ∈ p.2, w'.get_component cv.1 p.1 = some cv.2) ∧
      (∀ U : ComponentInfo, U.id ∉ p.2.map (·.1.id) →
        w'.get_component U p.1 = none) := by
  obtain ⟨hlen, hinv⟩ := runTrace_inv cfg env trace w0 [] w' es
    (World.new_inv cfg env w0 hw0) hwf hrun
  refine ⟨hlen, ?_⟩
  intro p hp
  obtain ⟨hent, harch, hlive⟩ := hinv
  obtain ⟨⟨hfree, loc, a, hget, ha, hlt, hread, hcover⟩, hswf, hpenv⟩ :=
    hlive p (by simpa using hp)
  obtain ⟨hcap, hacct, hnd⟩ := harch a (List.getElem?_mem ha)
  have hgate : loc.entity / a.info.chunk_capacity * a.info.chunk_capacity < a.len ∧
      loc.entity % a.info.chunk_capacity <
        min (a.len - loc.entity / a.info.chunk_capacity * a.info.chunk_capacity)
          a.info.chunk_capacity := by
    have hdm : loc.entity / a.info.chunk_capacity * a.info.chunk_capacity +
        loc.entity % a.info.chunk_capacity = loc.entity := by
      rw [Nat.mul_comm]
      exact Nat.div_add_mod _ _
    refine ⟨Nat.lt_of_le_of_lt (Nat.div_mul_le_self _ _) hlt, ?_⟩
    rw [Nat.lt_min]
    exact ⟨by omega, Nat.mod_lt _ (by omega)⟩
  constructor
  · intro cv hcv
    obtain ⟨off, chunk, hoff, hchunk, hreadv⟩ := hread cv hcv
    simp only [World.get_component, hget, ha, hoff,
      ArchetypeInfo.split_entity_index, hchunk]
    rw [if_pos hgate, hreadv]
    exact congrArg some (Nat.mod_eq_of_lt (hswf.2 cv hcv))
  · intro U hU
    have hnone : a.info.component_offset U.id = none := by
      cases hfind : a.info.components.find? (fun cd => cd.info.id == U.id) with
      | none => simp [ArchetypeInfo.component_offset, hfind]
      | some cd =>
        exfalso
        have hid : cd.info.id = U.id := by simpa using List.find?_some hfind
        exact hU (hid ▸ hcover cd (List.mem_of_find?_eq_some hfind))
    simp only [World.get_component, hget, ha, hnone]

set_option maxRecDepth 10000 in
theorem c1_roundtrip_witness :
    ∃ (w0 w' : World) (es : List Entity),
      World.new defaultConfig = some w0 ∧
      runTrace defaultConfig w0 [(10, [(⟨0, 4, 4⟩, 42)])] = some (w', es) ∧
      es.length = 1 ∧
      ∀ p ∈ es.zip [[((⟨0, 4, 4⟩ : ComponentInfo), 42)]],
        (∀ cv ∈ p.2, w'.get_component cv.1 p.1 = some cv.2) ∧
        (∀ U : ComponentInfo, U.id ∉ p.2.map (·.1.id) →
          w'.get_component U p.1 = none) := by
  have hsome : ((World.new defaultConfig).bind fun w =>
      runTrace defaultConfig w [(10, [(⟨0, 4, 4⟩, 42)])]).isSome = true := by decide
  cases hw0 : World.new defaultConfig with
  | none => rw [hw0] at hsome; exact absurd hsome (by simp)
  | some w0 =>
    rw [hw0] at hsome
    simp only [Option.some_bind] at hsome
    cases hrun : runTrace defaultConfig w0 [(10, [(⟨0, 4, 4⟩, 42)])] with
    | none => rw [hrun] at hsome; exact absurd hsome (by simp)
    | some wes =>
      obtain ⟨w', es⟩ := wes
      have hc := c1_roundtrip defaultConfig (fun _ => ⟨0, 4, 4⟩)
        [(10, [(⟨0, 4, 4⟩, 42)])] w0 w' es hw0
        (by
          intro p hp
          rw [List.mem_singleton] at hp
          subst hp
          exact ⟨⟨by decide, by decide⟩, by decide⟩) hrun
      exact ⟨w0, w', es, rfl, hrun, hc.1, hc.2⟩

/-! ### Signature uniqueness (C8) -/

theorem lookup_mem {β : Type} (l : List (Nat × β)) (a : Nat) (b : β)
    (h : l.lookup a = some b) : (a, b) ∈ l := by
  induction l with
  | nil => simp [List.lookup] at h
  | cons hd tl ih =>
    rw [List.lookup] at h
    cases he : (a == hd.1) with
    | true =>
      rw [he] at h
      obtain rfl := Option.some.inj h
      have ha : a = hd.1 := by simpa using he
      have hh : (a, hd.2) = hd := by rw [ha]
      rw [List.mem_cons]
      exact Or.inl hh
    | false =>
      rw [he] at h
      exact List.mem_cons_of_mem _ (ih h)

theorem findIdx_go_spec {α : Type} (p : α → Bool) :
    ∀ (l : List α) (s i : Nat), l.findIdx? p s = some i →
      s ≤ i ∧ ∃ a, l[i - s]? = some a ∧ p a = true := by
  intro l
  induction l with
  | nil => intro s i h; rw [List.findIdx?_nil] at h; exact absurd h (by simp)
  | cons hd tl ih =>
    intro s i h
    rw [List.findIdx?_cons] at h
    by_cases hp : p hd = true
    · rw [if_pos hp] at h
      obtain rfl := Option.some.inj h
      refine ⟨Nat.le_refl _, hd, ?_, hp⟩
      simp
    · rw [if_neg hp] at h
      obtain ⟨hs, a, ha, hpa⟩ := ih (s + 1) i h
      refine ⟨by omega, a, ?_, hpa⟩
      have hstep : i - s = (i - (s + 1)) + 1 := by omega
      rw [hstep, List.getElem?_cons_succ]
      exact ha

theorem findIdx_spec {α : Type} (p : α → Bool) (l : List α) (i : Nat)
    (h : l.findIdx? p = some i) : ∃ a, l[i]? = some a ∧ p a = true := by
  obtain ⟨_, a, ha, hpa⟩ := findIdx_go_spec p l 0 i h
  exact ⟨a, by simpa using ha, hpa⟩

/-- The component-id list an archetype stores. -/
def idsOf (a : Archetype) : List Nat := a.info.components.map (·.info.id)

/-- No two archetypes in the array hold the same component-id list. -/
def SigUnique (s : Archetypes) : Prop :=
  ∀ (i j : Nat) (a b : Archetype),
    s.array[i]? = some a → s.array[j]? = some b → idsOf a = idsOf b → i = j

/-- Every signature-map entry points at an archetype holding exactly the
sorted component ids of the key's component list. -/
def MapOK (envk : Nat → List ComponentInfo) (s : Archetypes) : Prop :=
  ∀ kv ∈ s.set_to_archetype, ∃ a, s.array[kv.2]? = some a ∧
    idsOf a = (sortInfos (envk kv.1)).map (·.id)

/-- Every stored component-id list is sorted (archetypes are created from
sorted component lists). -/
def SortedIds (s : Archetypes) : Prop :=
  ∀ a ∈ s.array, List.Sorted (· ≤ ·) (idsOf a)

def ArchsInv (envk : Nat → List ComponentInfo) (s : Archetypes) : Prop :=
  SigUnique s ∧ MapOK envk s ∧ SortedIds s

theorem sortInfos_ids_sorted (l : List ComponentInfo) :
    List.Sorted (· ≤ ·) ((sortInfos l).map (·.id)) :=
  List.Pairwise.map _ (fun _ _ h => h) (List.sorted_insertionSort infoLe l)

/-- The ids a fresh `Archetype::new` stores are exactly the input ids. -/
theorem Archetype.new_ids (cfg : ChunkConfig) (comps : List ComponentInfo)
    (arch : Archetype) (hok : Archetype.new cfg comps = .ok arch) :
    idsOf arch = comps.map (·.id) := by
  simp only [Archetype.new] at hok
  cases hi : ArchetypeInfo.new cfg comps with
  | error err => rw [hi] at hok; exact absurd hok (by simp [Except.map])
  | ok info =>
    rw [hi] at hok
    simp only [Except.map] at hok
    obtain rfl := Except.ok.inj hok
    obtain ⟨_, hcomps⟩ := ArchetypeInfo.new_ok_inv cfg comps info hi
    show info.components.map (·.info.id) = comps.map (·.id)
    have hmm : info.components.map (·.info.id) =
        (info.components.map (·.info)).map (·.id) := by
      rw [List.map_map]
      rfl
    rw [hmm, hcomps, computeOffsets_map_info]

/-- What one `archetype_for_set` call does to the signature invariants: they
are preserved, the returned index holds an archetype with exactly the sorted
ids of the requested component list, and the array only grows when no
existing archetype matched. -/
theorem archetype_for_set_inv (cfg : ChunkConfig) (envk : Nat → List ComponentInfo)
    (s : Archetypes) (key : Nat) (s' : Archetypes) (i : Nat)
    (hinv : ArchsInv envk s)
    (h : s.archetype_for_set cfg key (envk key) = some (s', i)) :
    ArchsInv envk s' ∧
    (∃ a, s'.array[i]? = some a ∧ idsOf a = (sortInfos (envk key)).map (·.id)) ∧
    (s'.array = s.array ∨
      ∀ (j : Nat) (b : Archetype), s.array[j]? = some b →
        idsOf b ≠ (sortInfos (envk key)).map (·.id)) := by
  obtain ⟨hsig, hmap, hsort⟩ := hinv
  simp only [Archetypes.archetype_for_set] at h
  cases hl : s.set_to_archetype.lookup key with
  | some idx =>
    rw [hl] at h
    have hp := Option.some.inj h
    rw [Prod.mk.injEq] at hp
    obtain ⟨rfl, rfl⟩ := hp
    obtain ⟨a, ha, hida⟩ := hmap (key, idx) (lookup_mem _ _ _ hl)
    exact ⟨⟨hsig, hmap, hsort⟩, ⟨a, ha, hida⟩, Or.inl rfl⟩
  | none =>
    rw [hl] at h
    cases hf : s.array.findIdx?
        (fun a => a.info.is ((sortInfos (envk key)).map (·.id))) with
    | some j =>
      rw [hf] at h
      have hp := Option.some.inj h
      rw [Prod.mk.injEq] at hp
      obtain ⟨rfl, rfl⟩ := hp
      obtain ⟨a, ha, hpa⟩ := findIdx_spec _ _ _ hf
      have hida : idsOf a = (sortInfos (envk key)).map (·.id) := by
        simp only [ArchetypeInfo.is] at hpa
        exact of_decide_eq_true hpa
      exact ⟨⟨hsig, hmap, hsort⟩, ⟨a, ha, hida⟩, Or.inl rfl⟩
    | none =>
      rw [hf] at h
      by_cases hbig : s.array.length ≥ 2 ^ 32
      · rw [if_pos hbig] at h
        exact absurd h (by simp)
      · rw [if_neg hbig] at h
        cases hnew : Archetype.new cfg (sortInfos (envk key)) with
        | error err => rw [hnew] at h; exact absurd h (by simp)
        | ok arch =>
          rw [hnew] at h
          have hp := Option.some.inj h
          rw [Prod.mk.injEq] at hp
          obtain ⟨rfl, rfl⟩ := hp
          have hids : idsOf arch = (sortInfos (envk key)).map (·.id) :=
            Archetype.new_ids cfg _ arch hnew
          have hnomatch : ∀ x ∈ s.array,
              idsOf x ≠ (sortInfos (envk key)).map (·.id) := by
            intro x hx hcontra
            have hfx := (List.findIdx?_eq_none_iff.mp hf) x hx
            simp only [ArchetypeInfo.is] at hfx
            simp only [idsOf] at hcontra
            rw [hcontra] at hfx
            simp at hfx
          have hgetarch : (s.array ++ [arch])[s.array.length]? = some arch := by
            rw [List.getElem?_append_right (Nat.le_refl _)]
            simp
          refine ⟨⟨?_, ?_, ?_⟩, ⟨arch, hgetarch, hids⟩,
            Or.inr (fun j b hb => hnomatch b (List.getElem?_mem hb))⟩
          · intro i j a b ha0 hb0 hab
            have ha : (s.array ++ [arch])[i]? = some a := ha0
            have hb : (s.array ++ [arch])[j]? = some b := hb0
            have hilen : i < s.array.length + 1 := by
              have := getElem?_some_lt _ _ _ ha
              simpa using this
            have hjlen : j < s.array.length + 1 := by
              have := getElem?_some_lt _ _ _ hb
              simpa using this
            by_cases hi : i < s.array.length <;> by_cases hj : j < s.array.length
            · rw [List.getElem?_append_left hi] at ha
              rw [List.getElem?_append_left hj] at hb
              exact hsig i j a b ha hb hab
            · exfalso
              have hjl : j = s.array.length := by omega
              subst hjl
              rw [hgetarch] at hb
              obtain rfl := Option.some.inj hb
              rw [List.getElem?_append_left hi] at ha
              exact hnomatch a (List.getElem?_mem ha) (by rw [hab]; exact hids)
            · exfalso
              have hil : i = s.array.length := by omega
              subst hil
              rw [hgetarch] at ha
              obtain rfl := Option.some.inj ha
              rw [List.getElem?_append_left hj] at hb
              exact hnomatch b (List.getElem?_mem hb) (by rw [← hab]; exact hids)
            · have h1 : i = s.array.length := by omega
              have h2 : j = s.array.length := by omega
              rw [h1, h2]
          · intro kv hkv0
            have hkv : kv ∈ s.set_to_archetype ++ [(key, s.array.length)] := hkv0
            rw [List.mem_append] at hkv
            rcases hkv with hkv | hkv
            · obtain ⟨a, ha, hida⟩ := hmap kv hkv
              exact ⟨a, by
                show (s.array ++ [arch])[kv.2]? = some a
                rw [List.getElem?_append_left (getElem?_some_lt _ _ _ ha)]
                exact ha, hida⟩
            · rw [List.mem_singleton] at hkv
              subst hkv
              exact ⟨arch, hgetarch, hids⟩
          · intro x hx0
            have hx : x ∈ s.array ++ [arch] := hx0
            rw [List.mem_append] at hx
            rcases hx with hx | hx
            · exact hsort x hx
            · rw [List.mem_singleton] at hx
              subst hx
              rw [hids]
              exact sortInfos_ids_sorted _

/-- C8: signature uniqueness.  From a state satisfying the signature
invariants, routing two inserts whose component lists carry the same
underlying set of component ids (in any order) through
`archetype_for_set` yields the same archetype index; afterwards no two
archetypes hold permutation-equal component-id lists, and the same holds in
a freshly created world. -/
theorem c8_signature_unique (cfg : ChunkConfig) (envk : Nat → List ComponentInfo)
    (s s₁ s₂ : Archetypes) (key₁ key₂ i₁ i₂ : Nat)
    (hinv : ArchsInv envk s)
    (h₁ : s.archetype_for_set cfg key₁ (envk key₁) = some (s₁, i₁))
    (h₂ : s₁.archetype_for_set cfg key₂ (envk key₂) = some (s₂, i₂))
    (hsame : ((envk key₁).map (·.id)).Perm ((envk key₂).map (·.id))) :
    i₂ = i₁ ∧
    (∀ (j₁ j₂ : Nat) (a b : Archetype), s₂.array[j₁]? = some a →
      s₂.array[j₂]? = some b → (idsOf a).Perm (idsOf b) → j₁ = j₂) ∧
    ∀ w0, World.new cfg = some w0 →
      ∀ (j₁ j₂ : Nat) (a b : Archetype), w0.archetypes.array[j₁]? = some a →
        w0.archetypes.array[j₂]? = some b → (idsOf a).Perm (idsOf b) → j₁ = j₂ := by
  have hsorted_eq : (sortInfos (envk key₁)).map (·.id) =
      (sortInfos (envk key₂)).map (·.id) := by
    refine List.eq_of_perm_of_sorted ?_ (sortInfos_ids_sorted _) (sortInfos_ids_sorted _)
    exact ((List.perm_insertionSort _ _).map _).trans
      (hsame.trans ((List.perm_insertionSort _ _).map _).symm)
  obtain ⟨hinv₁, ⟨a₁, ha₁, hida₁⟩, _⟩ :=
    archetype_for_set_inv cfg envk s key₁ s₁ i₁ hinv h₁
  obtain ⟨hinv₂, ⟨a₂, ha₂, hida₂⟩, hcase₂⟩ :=
    archetype_for_set_inv cfg envk s₁ key₂ s₂ i₂ hinv₁ h₂
  have harr : s₂.array = s₁.array := by
    rcases hcase₂ with harr | hno
    · exact harr
    · exact absurd (hida₁.trans hsorted_eq) (hno i₁ a₁ ha₁)
  refine ⟨?_, ?_, ?_⟩
  · have ha₂' : s₁.array[i₂]? = some a₂ := by rw [← harr]; exact ha₂
    exact hinv₁.1 i₂ i₁ a₂ a₁ ha₂' ha₁ (by rw [hida₂, ← hsorted_eq, ← hida₁])
  · intro j₁ j₂ a b ha hb hperm
    have hsorta := hinv₂.2.2 a (List.getElem?_mem ha)
    have hsortb := hinv₂.2.2 b (List.getElem?_mem hb)
    exact hinv₂.1 j₁ j₂ a b ha hb (List.eq_of_perm_of_sorted hperm hsorta hsortb)
  · intro w0 hw0 j₁ j₂ a b ha hb _
    simp only [World.new] at hw0
    cases hn : Archetype.new cfg [] with
    | error err => rw [hn] at hw0; exact absurd hw0 (by simp)
    | ok empty =>
      simp only [hn] at hw0
      obtain rfl := Option.some.inj hw0
      have h1 : j₁ < 1 := by simpa using getElem?_some_lt _ _ _ ha
      have h2 : j₂ < 1 := by simpa using getElem?_some_lt _ _ _ hb
      omega

def c8envk : Nat → List ComponentInfo := fun key =>
  if key = 1 then [⟨5, 4, 4⟩, ⟨3, 4, 4⟩] else [⟨3, 4, 4⟩, ⟨5, 4, 4⟩]

theorem c8_signature_unique_witness :
    ∃ (s₁ s₂ : Archetypes) (i₁ i₂ : Nat),
      Archetypes.archetype_for_set defaultConfig ⟨[], []⟩ 1 (c8envk 1) =
        some (s₁, i₁) ∧
      Archetypes.archetype_for_set defaultConfig s₁ 2 (c8envk 2) =
        some (s₂, i₂) ∧
      i₂ = i₁ := by
  have hsome : ((Archetypes.archetype_for_set defaultConfig ⟨[], []⟩ 1
      (c8envk 1)).bind fun r =>
      Archetypes.archetype_for_set defaultConfig r.1 2 (c8envk 2)).isSome = true := by
    decide
  cases hc1 : Archetypes.archetype_for_set defaultConfig ⟨[], []⟩ 1 (c8envk 1) with
  | none => rw [hc1] at hsome; exact absurd hsome (by simp)
  | some r1 =>
    obtain ⟨s₁, i₁⟩ := r1
    rw [hc1] at hsome
    simp only [Option.some_bind] at hsome
    cases hc2 : Archetypes.archetype_for_set defaultConfig s₁ 2 (c8envk 2) with
    | none => rw [hc2] at hsome; exact absurd hsome (by simp)
    | some r2 =>
      obtain ⟨s₂, i₂⟩ := r2
      have hc := c8_signature_unique defaultConfig c8envk ⟨[], []⟩ s₁ s₂ 1 2 i₁ i₂
        ⟨fun i j a b ha => absurd ha (by simp),
          fun kv hkv => absurd hkv (by simp),
          fun x hx => absurd hx (by simp)⟩ hc1 hc2 (by decide)
      exact ⟨s₁, s₂, i₁, i₂, rfl, hc2, hc.1⟩

/-! ### Or-view completeness (C9) -/

/-- `ChunkSizes`: the per-chunk live-row counts the iterator yields —
`min(len, chunk)` repeatedly until `len` is exhausted (fuelled; `len` steps
suffice whenever the capacity is positive). -/
def chunkSizesGo (cap : Nat) : Nat → Nat → List Nat
  | _, 0 => []
  | 0, _ + 1 => []
  | fuel + 1, len + 1 =>
    Nat.min (len + 1) cap :: chunkSizesGo cap fuel (len + 1 - Nat.min (len + 1) cap)

def chunkSizes (cap len : Nat) : List Nat := chunkSizesGo cap len len

theorem chunkSizesGo_spec (cap : Nat) (hcap : 1 ≤ cap) :
    ∀ (fuel len : Nat), len ≤ fuel →
      (chunkSizesGo cap fuel len).sum = len ∧
      ∀ (ch : Nat), len ≤ ch * cap → (chunkSizesGo cap fuel len).length ≤ ch := by
  intro fuel
  induction fuel with
  | zero =>
    intro len hlen
    have h0 : len = 0 := by omega
    subst h0
    exact ⟨rfl, fun ch _ => by simp [chunkSizesGo]⟩
  | succ fuel ih =>
    intro len hlen
    cases len with
    | zero => exact ⟨rfl, fun ch _ => by simp [chunkSizesGo]⟩
    | succ m =>
      have hmin1 : 1 ≤ Nat.min (m + 1) cap := by
        rw [Nat.le_min]
        omega
      have hminle : Nat.min (m + 1) cap ≤ m + 1 := Nat.min_le_left _ _
      obtain ⟨hsum, hlen'⟩ := ih (m + 1 - Nat.min (m + 1) cap) (by omega)
      constructor
      · simp only [chunkSizesGo, List.sum_cons]
        omega
      · intro ch hch
        simp only [chunkSizesGo, List.length_cons]
        have hch1 : 1 ≤ ch := by
          by_contra hc
          have hch0 : ch = 0 := by omega
          subst hch0
          simp at hch
        rcases Nat.le_total (m + 1) cap with hle | hle
        · have hmeq : Nat.min (m + 1) cap = m + 1 := Nat.min_eq_left hle
          have hz : m + 1 - Nat.min (m + 1) cap = 0 := by omega
          rw [hz]
          simp [chunkSizesGo]
          omega
        · have hmeq : Nat.min (m + 1) cap = cap := Nat.min_eq_right hle
          have hrest := hlen' (ch - 1) (by
            have hcm : (ch - 1) * cap = ch * cap - cap := by
              rw [Nat.sub_mul, Nat.one_mul]
            rw [hcm, hmeq]
            omega)
          omega

/-- `Zip` over a tuple of iterators, as a list transpose that stops at the
shortest member: while every member is nonempty, emit the heads and recurse
on the tails. -/
def zipNGo {α : Type} (dflt : α) : Nat → List (List α) → List (List α)
  | 0, _ => []
  | fuel + 1, ls =>
    if ls.all (fun l => !l.isEmpty) then
      ls.map (fun l => l.headD dflt) :: zipNGo dflt fuel (ls.map (·.tail))
    else []

def zipN {α : Type} (dflt : α) (ls : List (List α)) : List (List α) :=
  zipNGo dflt ((ls.map (·.length)).foldl Nat.max 0 + 1) ls

theorem foldl_max_le_init (l : List Nat) : ∀ init, init ≤ l.foldl Nat.max init := by
  induction l with
  | nil => intro init; exact Nat.le_refl _
  | cons h t ih => intro init; exact Nat.le_trans (Nat.le_max_left _ _) (ih _)

theorem mem_le_foldl_max (l : List Nat) :
    ∀ (init x : Nat), x ∈ l → x ≤ l.foldl Nat.max init := by
  induction l with
  | nil => intro _ x hx; exact absurd hx (List.not_mem_nil _)
  | cons h t ih =>
    intro init x hx
    rw [List.mem_cons] at hx
    rcases hx with rfl | hx
    · exact Nat.le_trans (Nat.le_max_right init x) (foldl_max_le_init t _)
    · exact ih _ x hx

theorem zipNGo_uniform {α : Type} (dflt : α) :
    ∀ (fuel n : Nat) (ls : List (List α)), n < fuel → ls ≠ [] →
      (∀ l ∈ ls, l.length = n) →
      (zipNGo dflt fuel ls).length = n ∧
      ∀ (j : Nat) (r : List α), (zipNGo dflt fuel ls)[j]? = some r →
        r.length = ls.length ∧
        ∀ (i : Nat) (l : List α) (x : α), ls[i]? = some l → r[i]? = some x →
          l[j]? = some x := by
  intro fuel
  induction fuel with
  | zero => intro n ls hn; exact absurd hn (Nat.not_lt_zero n)
  | succ fuel ih =>
    intro n ls hn hne hlen
    cases n with
    | zero =>
      obtain ⟨l₀, ls', rfl⟩ : ∃ l₀ ls', ls = l₀ :: ls' := by
        cases ls with
        | nil => exact absurd rfl hne
        | cons a b => exact ⟨a, b, rfl⟩
      have h0 : l₀ = [] :=
        List.eq_nil_of_length_eq_zero (hlen l₀ (List.mem_cons_self _ _))
      subst h0
      have hz : zipNGo dflt (fuel + 1) (([] : List α) :: ls') = [] := by
        simp [zipNGo]
      rw [hz]
      exact ⟨rfl, fun j r hr => absurd hr (by simp)⟩
    | succ m =>
      have hguard : (ls.all fun l => !l.isEmpty) = true := by
        rw [List.all_eq_true]
        intro l hl
        have hll := hlen l hl
        cases l with
        | nil => simp at hll
        | cons a t => rfl
      have hzip : zipNGo dflt (fuel + 1) ls =
          ls.map (fun l => l.headD dflt) :: zipNGo dflt fuel (ls.map (·.tail)) := by
        simp [zipNGo, hguard]
      have hlen' : ∀ l' ∈ ls.map (·.tail), l'.length = m := by
        intro l' hl'
        obtain ⟨l, hl, rfl⟩ := List.mem_map.mp hl'
        rw [List.length_tail, hlen l hl]
        omega
      have hne' : ls.map (·.tail) ≠ [] := by
        rw [Ne, List.map_eq_nil_iff]
        exact hne
      obtain ⟨ihlen, ihrow⟩ := ih m (ls.map (·.tail)) (by omega) hne' hlen'
      rw [hzip]
      refine ⟨by simp [ihlen], ?_⟩
      intro j r hr
      cases j with
      | zero =>
        rw [List.getElem?_cons_zero] at hr
        obtain rfl := Option.some.inj hr
        refine ⟨by simp, ?_⟩
        intro i l x hi hx
        rw [List.getElem?_map, hi] at hx
        obtain rfl := Option.some.inj hx
        have hl : l.length = m + 1 := hlen l (List.getElem?_mem hi)
        cases l with
        | nil => simp at hl
        | cons a t => simp
      | succ j' =>
        rw [List.getElem?_cons_succ] at hr
        obtain ⟨hrl, hrel⟩ := ihrow j' r hr
        refine ⟨by simpa using hrl, ?_⟩
        intro i l x hi hx
        have hti : (ls.map (·.tail))[i]? = some l.tail := by
          rw [List.getElem?_map, hi]
          rfl
        have := hrel i l.tail x hti hx
        rw [List.getElem?_tail] at this
        exact this

theorem zipN_uniform {α : Type} (dflt : α) (n : Nat) (ls : List (List α))
    (hne : ls ≠ []) (hlen : ∀ l ∈ ls, l.length = n) :
    (zipN dflt ls).length = n ∧
    ∀ (j : Nat) (r : List α), (zipN dflt ls)[j]? = some r →
      r.length = ls.length ∧
      ∀ (i : Nat) (l : List α) (x : α), ls[i]? = some l → r[i]? = some x →
        l[j]? = some x := by
  have hfuel : n < (ls.map (·.length)).foldl Nat.max 0 + 1 := by
    obtain ⟨l₀, ls', rfl⟩ : ∃ l₀ t, ls = l₀ :: t := by
      cases ls with
      | nil => exact absurd rfl hne
      | cons a b => exact ⟨a, b, rfl⟩
    have hmem : n ∈ ((l₀ :: ls').map (·.length)) := by
      rw [List.mem_map]
      exact ⟨l₀, List.mem_cons_self _ _, hlen l₀ (List.mem_cons_self _ _)⟩
    have := mem_le_foldl_max _ 0 n hmem
    omega
  exact zipNGo_uniform dflt _ n ls hfuel hne hlen

theorem has_iff_offset (info : ArchetypeInfo) (cid : Nat) :
    info.has cid = true ↔ ∃ off, info.component_offset cid = some off := by
  simp only [ArchetypeInfo.has, ArchetypeInfo.component_offset, List.any_eq_true]
  constructor
  · rintro ⟨cd, hmem, hp⟩
    cases hfind : info.components.find? (fun cd => cd.info.id == cid) with
    | none =>
      exact absurd hp (by simpa using List.find?_eq_none.mp hfind cd hmem)
    | some cd' => exact ⟨cd'.offset, rfl⟩
  · rintro ⟨off, hoff⟩
    cases hfind : info.components.find? (fun cd => cd.info.id == cid) with
    | none => rw [hfind] at hoff; exact absurd hoff (by simp)
    | some cd' =>
      have hp' := List.find?_some hfind
      exact ⟨cd', List.mem_of_find?_eq_some hfind, hp'⟩

/-- One branch of `Or::view`: a matching branch (`Read<T>`) yields, per chunk,
the chunk's column of entity views wrapped in `Some` (via
`TryArchetypeIter::Just`); a non-matching branch yields `None` repeated for
each chunk size (via `TryArchetypeIter::Nothing(chunk_sizes)`). -/
def orArchViewBranch (a : Archetype) (c : ComponentInfo) :
    List (List (Option (Option Nat))) :=
  match a.info.component_offset c.id with
  | some off =>
    (a.chunks.zip (chunkSizes a.info.chunk_capacity a.len)).map
      (fun p => (List.range p.2).map
        (fun ei => some (p.1.data.read (off + ei * c.size) c.id)))
  | none =>
    (chunkSizes a.info.chunk_capacity a.len).map (fun sz => List.replicate sz none)

theorem orArchViewBranch_spec (a : Archetype) (c : ComponentInfo)
    (hcap : 1 ≤ a.info.chunk_capacity)
    (hacct1 : a.len ≤ a.chunks.length * a.info.chunk_capacity) :
    (orArchViewBranch a c).length =
      (chunkSizes a.info.chunk_capacity a.len).length ∧
    ∀ (ci s : Nat), (chunkSizes a.info.chunk_capacity a.len)[ci]? = some s →
      ∃ cv, (orArchViewBranch a c)[ci]? = some cv ∧ cv.length = s ∧
        ∀ x ∈ cv, (x.isSome = true ↔ a.info.has c.id = true) := by
  have hslen : (chunkSizes a.info.chunk_capacity a.len).length ≤ a.chunks.length :=
    (chunkSizesGo_spec a.info.chunk_capacity hcap a.len a.len (Nat.le_refl _)).2
      a.chunks.length hacct1
  cases hoff : a.info.component_offset c.id with
  | some off =>
    have hhas : a.info.has c.id = true := (has_iff_offset _ _).mpr ⟨off, hoff⟩
    simp only [orArchViewBranch, hoff]
    constructor
    · rw [List.length_map, List.length_zip]
      omega
    · intro ci s hs
      have hci : ci < (chunkSizes a.info.chunk_capacity a.len).length :=
        getElem?_some_lt _ _ _ hs
      have hcich : ci < a.chunks.length := by omega
      have hch : a.chunks[ci]? = some (a.chunks[ci]) :=
        (List.getElem?_eq_some_getElem_iff _ _ hcich).mpr trivial
      have hzipci : (a.chunks.zip (chunkSizes a.info.chunk_capacity a.len))[ci]? =
          some (a.chunks[ci], s) := by
        rw [List.getElem?_zip_eq_some]
        exact ⟨hch, hs⟩
      refine ⟨(List.range s).map
          (fun ei => some ((a.chunks[ci]).data.read (off + ei * c.size) c.id)),
        ?_, by simp, ?_⟩
      · rw [List.getElem?_map, hzipci]
        rfl
      · intro x hx
        rw [List.mem_map] at hx
        obtain ⟨ei, _, rfl⟩ := hx
        simp [hhas]
  | none =>
    have hhas : a.info.has c.id = false := by
      cases hh : a.info.has c.id
      · rfl
      · obtain ⟨off, hoff'⟩ := (has_iff_offset _ _).mp hh
        rw [hoff] at hoff'
        exact absurd hoff' (by simp)
    simp only [orArchViewBranch, hoff]
    refine ⟨List.length_map _ _, ?_⟩
    intro ci s hs
    refine ⟨List.replicate s none, ?_, List.length_replicate _ _, ?_⟩
    · rw [List.getElem?_map, hs]
      rfl
    · intro x hx
      obtain rfl := List.eq_of_mem_replicate hx
      simp [hhas]

/-- The rows an `Or` view yields on one archetype: zip the branch archetype
views chunk by chunk, zip each chunk's branch columns row by row, and
concatenate the chunks. -/
def orRows (a : Archetype) (branches : List ComponentInfo) :
    List (List (Option (Option Nat))) :=
  ((zipN ([] : List (Option (Option Nat)))
      (branches.map (fun c => orArchViewBranch a c))).map
    (fun cvs => zipN (none : Option (Option Nat)) cvs)).flatten

/-- C9: Or-view completeness.  On an archetype with consistent chunk
accounting that matches at least one branch's filter, the `Or` view of the
branch component reads yields exactly one row tuple per live row of the
archetype, each tuple has one slot per branch, and a slot holds `Some` of the
branch's entity view exactly when that branch's filter matches the
archetype (`None` otherwise). -/
theorem c9_or_view_completeness (a : Archetype) (branches : List ComponentInfo)
    (hcap : 1 ≤ a.info.chunk_capacity)
    (hacct1 : a.len ≤ a.chunks.length * a.info.chunk_capacity)
    (hne : branches ≠ [])
    (hmatch : ∃ c ∈ branches, a.info.has c.id = true) :
    (orRows a branches).length = a.len ∧
    ∀ row ∈ orRows a branches, row.length = branches.length ∧
      ∀ (i : Nat) (c : ComponentInfo) (x : Option (Option Nat)),
        branches[i]? = some c → row[i]? = some x →
        (x.isSome = true ↔ a.info.has c.id = true) := by
  have hbne : branches.map (fun c => orArchViewBranch a c) ≠ [] := by
    rw [Ne, List.map_eq_nil_iff]
    exact hne
  have hblen : ∀ l ∈ branches.map (fun c => orArchViewBranch a c),
      l.length = (chunkSizes a.info.chunk_capacity a.len).length := by
    intro l hl
    obtain ⟨c, _, rfl⟩ := List.mem_map.mp hl
    exact (orArchViewBranch_spec a c hcap hacct1).1
  obtain ⟨hclen, hcrow⟩ := zipN_uniform ([] : List (Option (Option Nat)))
    ((chunkSizes a.info.chunk_capacity a.len).length)
    (branches.map (fun c => orArchViewBranch a c)) hbne hblen
  have hchunk : ∀ (ci s : Nat) (cvs : List (List (Option (Option Nat)))),
      (chunkSizes a.info.chunk_capacity a.len)[ci]? = some s →
      (zipN ([] : List (Option (Option Nat)))
        (branches.map (fun c => orArchViewBranch a c)))[ci]? = some cvs →
      cvs.length = branches.length ∧
      (∀ cv ∈ cvs, cv.length = s) ∧
      ∀ (i : Nat) (c : ComponentInfo) (cv : List (Option (Option Nat))),
        branches[i]? = some c → cvs[i]? = some cv →
        ∀ x ∈ cv, (x.isSome = true ↔ a.info.has c.id = true) := by
    intro ci s cvs hs hcvs
    obtain ⟨hcvslen, hcvsrel⟩ := hcrow ci cvs hcvs
    rw [List.length_map] at hcvslen
    refine ⟨hcvslen, ?_, ?_⟩
    · intro cv hcv
      obtain ⟨i, hi⟩ := List.getElem?_of_mem hcv
      have hib : i < branches.length := by
        have := getElem?_some_lt _ _ _ hi
        omega
      have hbi : branches[i]? = some (branches[i]) :=
        (List.getElem?_eq_some_getElem_iff _ _ hib).mpr trivial
      have hbvi : (branches.map (fun c => orArchViewBranch a c))[i]? =
          some (orArchViewBranch a (branches[i])) := by
        rw [List.getElem?_map, hbi]
        rfl
      have hcv' := hcvsrel i _ cv hbvi hi
      obtain ⟨cv', hcv2, hcvlen, _⟩ :=
        (orArchViewBranch_spec a (branches[i]) hcap hacct1).2 ci s hs
      rw [hcv'] at hcv2
      obtain rfl := Option.some.inj hcv2
      exact hcvlen
    · intro i c cv hbi hcvi
      have hbvi : (branches.map (fun c => orArchViewBranch a c))[i]? =
          some (orArchViewBranch a c) := by
        rw [List.getElem?_map, hbi]
        rfl
      have hcv' := hcvsrel i _ cv hbvi hcvi
      obtain ⟨cv', hcv2, _, hcontent⟩ :=
        (orArchViewBranch_spec a c hcap hacct1).2 ci s hs
      rw [hcv'] at hcv2
      obtain rfl := Option.some.inj hcv2
      exact hcontent
  have hmaplen : List.map List.length
      ((zipN ([] : List (Option (Option Nat)))
        (branches.map (fun c => orArchViewBranch a c))).map
        (fun cvs => zipN (none : Option (Option Nat)) cvs)) =
      chunkSizes a.info.chunk_capacity a.len := by
    apply List.ext_getElem?
    intro n
    rw [List.getElem?_map, List.getElem?_map]
    by_cases hn : n < (chunkSizes a.info.chunk_capacity a.len).length
    · have hbound : n < (zipN ([] : List (Option (Option Nat)))
          (branches.map (fun c => orArchViewBranch a c))).length := by
        omega
      have hzn := (List.getElem?_eq_some_getElem_iff
        (zipN ([] : List (Option (Option Nat)))
          (branches.map (fun c => orArchViewBranch a c))) n hbound).mpr trivial
      have hsn := (List.getElem?_eq_some_getElem_iff
        (chunkSizes a.info.chunk_capacity a.len) n hn).mpr trivial
      rw [hzn, hsn]
      obtain ⟨hcvslen, hcvlenall, _⟩ := hchunk n _ _ hsn hzn
      have hcvsne : (zipN ([] : List (Option (Option Nat)))
          (branches.map (fun c => orArchViewBranch a c)))[n] ≠ [] := by
        apply List.length_pos.mp
        rw [hcvslen]
        exact List.length_pos.mpr hne
      obtain ⟨hrl, _⟩ := zipN_uniform (none : Option (Option Nat)) _ _ hcvsne hcvlenall
      exact congrArg some hrl
    · rw [List.getElem?_eq_none (by omega), List.getElem?_eq_none (by omega)]
      rfl
  constructor
  · show (orRows a branches).length = a.len
    simp only [orRows]
    rw [List.length_flatten, hmaplen]
    exact (chunkSizesGo_spec a.info.chunk_capacity hcap a.len a.len (Nat.le_refl _)).1
  · intro row hrow
    simp only [orRows] at hrow
    rw [List.mem_flatten] at hrow
    obtain ⟨chunkRows, hcr, hrowin⟩ := hrow
    rw [List.mem_map] at hcr
    obtain ⟨cvs, hcvsmem, rfl⟩ := hcr
    obtain ⟨ci, hci⟩ := List.getElem?_of_mem hcvsmem
    have hcib : ci < (chunkSizes a.info.chunk_capacity a.len).length := by
      have := getElem?_some_lt _ _ _ hci
      omega
    have hs := (List.getElem?_eq_some_getElem_iff
      (chunkSizes a.info.chunk_capacity a.len) ci hcib).mpr trivial
    obtain ⟨hcvslen, hcvlenall, hassoc⟩ := hchunk ci _ cvs hs hci
    have hcvsne : cvs ≠ [] := by
      apply List.length_pos.mp
      rw [hcvslen]
      exact List.length_pos.mpr hne
    obtain ⟨hrlen, hrrel⟩ := zipN_uniform (none : Option (Option Nat)) _ cvs
      hcvsne hcvlenall
    obtain ⟨j, hj⟩ := List.getElem?_of_mem hrowin
    obtain ⟨hrowlen, hrowrel⟩ := hrrel j row hj
    refine ⟨by rw [hrowlen, hcvslen], ?_⟩
    intro i c x hbi hxi
    have hib : i < cvs.length := by
      have hxb := getElem?_some_lt _ _ _ hxi
      omega
    have hcvi := (List.getElem?_eq_some_getElem_iff cvs i hib).mpr trivial
    have hx_in : (cvs[i])[j]? = some x := hrowrel i _ x hcvi hxi
    exact hassoc i c _ hbi hcvi x (List.getElem?_mem hx_in)

/-- A small archetype: capacity 2, one column (component 0), 3 live rows in
2 chunks. -/
def c9arch : Archetype :=
  { info := { chunkSize := 32, chunkAlign := 8, chunk_capacity := 2,
              components := [⟨⟨0, 4, 4⟩, 16⟩] }
    chunks := [⟨[], []⟩, ⟨[], []⟩]
    len := 3 }

theorem c9_or_view_completeness_witness :
    (orRows c9arch [⟨0, 4, 4⟩, ⟨1, 4, 4⟩]).length = c9arch.len ∧
    ∀ row ∈ orRows c9arch [⟨0, 4, 4⟩, ⟨1, 4, 4⟩],
      row.length = ([⟨0, 4, 4⟩, ⟨1, 4, 4⟩] : List ComponentInfo).length ∧
      ∀ (i : Nat) (c : ComponentInfo) (x : Option (Option Nat)),
        ([⟨0, 4, 4⟩, ⟨1, 4, 4⟩] : List ComponentInfo)[i]? = some c →
        row[i]? = some x →
        (x.isSome = true ↔ c9arch.info.has c.id = true) :=
  c9_or_view_completeness c9arch [⟨0, 4, 4⟩, ⟨1, 4, 4⟩]
    (by decide) (by decide) (by decide) (by decide)

end Alex
